import Mathlib

set_option linter.unusedSectionVars false

/-!
Verification of the zkdiff core (guest `methods/guest/src/main.rs` and host
`host/src/main.rs`) against its specification.

The guest's diff pipeline is embedded shallowly:
* machine integers: `usize` values are `Nat`; the solver's `i32` values are
  `Int` (their magnitudes stay below `n + m + 1`, far from any `i32` wrap for
  every input the real program can process).  The `i32 → usize` casts in the
  bound tests are modelled exactly for in-range values: a negative `i32` casts
  to at least `2^32`, so `(x as usize) < n` is `0 ≤ x ∧ x.toNat < n` and
  `(x as usize) >= n` is `x < 0 ∨ n ≤ x.toNat`.
* the per-level reach array `v` (a `Vec<i32>` indexed by `k + offset`, all
  accesses in bounds) is a function `Int → Int` indexed by the diagonal `k`.
* `Sha256` is implemented concretely (FIPS 180-4) over byte lists.
* fallible code returns `Except`/`Option`.
-/

namespace ZkDiff

/-- Guest `EditOp` (methods/guest/src/main.rs, lines 52-57). -/
inductive EditOp where
  | Insert
  | Delete
  | Keep
deriving DecidableEq, Repr

/-- Guest `Edit` (lines 45-50); `usize` indices as `Nat`. -/
structure Edit where
  operation : EditOp
  old_index : Nat
  new_index : Nat
deriving DecidableEq, Repr

variable {α : Type} [DecidableEq α]

/-- Body of the snake-extension `while` loop of `myers_diff` (lines 121-125),
with a structural fuel so that concrete runs reduce in the kernel.  Each
iteration requires `(x as usize) < a.length`, so the loop runs fewer than
`a.length + 1` times and the fuel-exhausted base case is unreachable for the
fuel `snakeExt` supplies. -/
def snakeAux (a b : List α) : Nat → Int → Int → Int × Int
  | 0, x, y => (x, y)
  | fuel + 1, x, y =>
    if 0 ≤ x ∧ 0 ≤ y ∧ x.toNat < a.length ∧ y.toNat < b.length ∧
        a.get? x.toNat = b.get? y.toNat then
      snakeAux a b fuel (x + 1) (y + 1)
    else (x, y)

/-- The snake-extension `while` loop of `myers_diff` (lines 121-125):
`while (x_cur as usize) < n && (y_cur as usize) < m && a[x_cur as usize] == b[y_cur as usize]`,
incrementing both coordinates.  The in-bounds indexing `a[x] == b[y]` is the
equality of the `get?` values. -/
def snakeExt (a b : List α) (x y : Int) : Int × Int :=
  snakeAux a b (a.length + 1) x y

/-- The diagonal-selection test of `myers_diff` (line 112):
`k == start_k || (k != end_k && v[idx - 1] < v[idx + 1])` with `start_k = -d`
and `end_k = d`.  A `true` result means the new reach is taken from diagonal
`k + 1`, the insertion-producing neighbour; `false` takes `v[k - 1] + 1`, the
deletion-producing neighbour. -/
def fwdTakesInsert (v : Int → Int) (d k : Int) : Bool :=
  decide (k = -d ∨ (k ≠ d ∧ v (k - 1) < v (k + 1)))

/-- The diagonal-selection test of `backtrack` (lines 150-155), written
separately in the source but identical in shape to the forward one. -/
def backTakesInsert (v : Int → Int) (td k : Int) : Bool :=
  decide (k = -td ∨ (k ≠ td ∧ v (k - 1) < v (k + 1)))

/-- Body of the inner `while` loop of `backtrack` (lines 161-169), with a
structural fuel: each iteration requires `px < x` and decrements `x`, so the
loop runs at most `(x - px).toNat` times — the fuel `backSnake` supplies —
and the fuel-exhausted base case coincides with the failing guard. -/
def backSnakeAux (px py : Int) : Nat → Int → Int → List Edit → Int × Int × List Edit
  | 0, x, y, edits => (x, y, edits)
  | fuel + 1, x, y, edits =>
    if px < x ∧ py < y then
      backSnakeAux px py fuel (x - 1) (y - 1) (edits ++ [⟨EditOp.Keep, (x - 1).toNat, (y - 1).toNat⟩])
    else (x, y, edits)

/-- The inner `while` loop of `backtrack` (lines 161-169): while
`x > prev_x && y > prev_y`, decrement both coordinates and push a `Keep`
edit carrying the decremented indices. -/
def backSnake (px py : Int) (x y : Int) (edits : List Edit) : Int × Int × List Edit :=
  backSnakeAux px py (x - px).toNat x y edits

/-- The `for trace_d in (0..=d).rev()` loop of `backtrack` (lines 145-188),
iterating over the descending list of levels; `trace.getD` models the (always
in-bounds) `trace[trace_d]` indexing. -/
def backLoop (trace : List (Int → Int)) : List Nat → Int → Int → List Edit → List Edit
  | [], _, _, edits => edits
  | td :: tds, x, y, edits =>
    let v := trace.getD td (fun _ => 0)
    let k := x - y
    let prevK := if backTakesInsert v (td : Int) k then k + 1 else k - 1
    let prevX : Int := if 0 < td then v prevK else 0
    let prevY : Int := prevX - prevK
    let s := backSnake prevX prevY x y edits
    if 0 < td then
      if prevX < s.1 then
        backLoop trace tds (s.1 - 1) s.2.1 (s.2.2 ++ [⟨EditOp.Delete, (s.1 - 1).toNat, s.2.1.toNat⟩])
      else if prevY < s.2.1 then
        backLoop trace tds s.1 (s.2.1 - 1) (s.2.2 ++ [⟨EditOp.Insert, s.1.toNat, (s.2.1 - 1).toNat⟩])
      else
        backLoop trace tds s.1 s.2.1 s.2.2
    else
      backLoop trace tds s.1 s.2.1 s.2.2

/-- Guest `backtrack` (lines 138-192): walk the levels from `d` down to `0`
starting at `(n, m)`, then reverse the accumulated edit list. -/
def backtrack (trace : List (Int → Int)) (a b : List α) (d : Nat) : List Edit :=
  (backLoop trace (List.range (d + 1)).reverse (a.length : Int) (b.length : Int) []).reverse

/-- Diagonal values visited by the inner loop at level `d`:
`(start_k..=end_k).step_by(2)` is `-d, -d+2, …, d` (line 109). -/
def kList (d : Nat) : List Int :=
  (List.range (d + 1)).map (fun (i : Nat) => -(d : Int) + 2 * (i : Int))

/-- The inner `for k` loop of `myers_diff` (lines 109-132).  Returns `.inr`
with the backtrack result on the early return of line 130, else `.inl` with
the updated reach function.  The end test on line 129 is
`(x_cur as usize) >= n && (y_cur as usize) >= m` under the `i32 → usize`
cast reading explained at the top of the file.  The source stores
`v[idx] = x_cur` before testing; the stored value is dead on the returning
branch, so storing after the test is equivalent. -/
def innerLoop (a b : List α) (trace : List (Int → Int)) (d : Nat) :
    (Int → Int) → List Int → (Int → Int) ⊕ List Edit
  | v, [] => Sum.inl v
  | v, k :: ks =>
    let x := if fwdTakesInsert v (d : Int) k then v (k + 1) else v (k - 1) + 1
    let p := snakeExt a b x (x - k)
    if (p.1 < 0 ∨ a.length ≤ p.1.toNat) ∧ (p.2 < 0 ∨ b.length ≤ p.2.toNat) then
      Sum.inr (backtrack trace a b d)
    else
      innerLoop a b trace d (fun j => if j = k then p.1 else v j) ks

/-- The outer `for d in 0..=max_d` loop of `myers_diff` (lines 103-133),
structurally recursive on the number of remaining iterations (`myers_diff`
starts it with `max_d + 1`, the iteration count of `0..=max_d`);
`trace.push(v.clone())` happens at the top of each iteration (line 104), and
the fall-through result after the last iteration is `Vec::new()` (line 135). -/
def outerLoop (a b : List α) : Nat → (Int → Int) → List (Int → Int) → Nat → List Edit
  | 0, _, _, _ => []
  | count + 1, v, trace, d =>
    match innerLoop a b (trace ++ [v]) d v (kList d) with
    | Sum.inr r => r
    | Sum.inl v2 => outerLoop a b count v2 (trace ++ [v]) (d + 1)

/-- Guest `myers_diff` (lines 93-136). -/
def myers_diff (a b : List α) : List Edit :=
  outerLoop a b (a.length + b.length + 1) (fun _ => 0) [] 0

/-- Guest `DiffOperation` (lines 21-26). -/
inductive DiffOperation where
  | Insert
  | Delete
  | Replace
deriving DecidableEq, Repr

/-- Guest `RedactionRange` (lines 14-19). -/
structure RedactionRange where
  start_line : Nat
  end_line : Nat
  operation : DiffOperation
deriving DecidableEq, Repr

/-- Guest `DiffLine` (lines 36-43). -/
structure DiffLine where
  line_number_a : Option Nat
  line_number_b : Option Nat
  operation : DiffOperation
  content : Option String
  redacted_length : Option Nat
deriving DecidableEq, Repr

/-- Guest `should_redact_line` (lines 245-258); the early-returning `for` loop
over the ranges is `List.any`, and `start_line.saturating_sub(1)` is `Nat`
subtraction. -/
def should_redact_line (line_number : Nat) (operation : DiffOperation)
    (redaction_ranges : List RedactionRange) : Bool :=
  redaction_ranges.any (fun range =>
    decide (range.operation = operation ∧
      range.start_line - 1 ≤ line_number ∧ line_number < range.end_line))

/-- Guest `create_diff_lines` (lines 194-243).  The in-bounds slice indexing
`lines_a[edit.old_index]` is modelled with `getD`; Rust `String::len()` is the
UTF-8 byte length `String.utf8ByteSize`. -/
def create_diff_lines (edits : List Edit) (lines_a lines_b : List String)
    (redaction_ranges : List RedactionRange) : List DiffLine :=
  match edits with
  | [] => []
  | edit :: rest =>
    match edit.operation with
    | EditOp.Keep => create_diff_lines rest lines_a lines_b redaction_ranges
    | EditOp.Delete =>
      let line_content := lines_a.getD edit.old_index ""
      let sr := should_redact_line edit.old_index DiffOperation.Delete redaction_ranges
      { line_number_a := some (edit.old_index + 1)
        line_number_b := none
        operation := DiffOperation.Delete
        content := if sr then none else some line_content
        redacted_length := if sr then some line_content.utf8ByteSize else none } ::
        create_diff_lines rest lines_a lines_b redaction_ranges
    | EditOp.Insert =>
      let line_content := lines_b.getD edit.new_index ""
      let sr := should_redact_line edit.new_index DiffOperation.Insert redaction_ranges
      { line_number_a := none
        line_number_b := some (edit.new_index + 1)
        operation := DiffOperation.Insert
        content := if sr then none else some line_content
        redacted_length := if sr then some line_content.utf8ByteSize else none } ::
        create_diff_lines rest lines_a lines_b redaction_ranges

/-! SHA-256 (the guest's `sha2::Sha256` dependency), FIPS 180-4, over byte
lists; 32-bit words are `Nat` values reduced mod `2^32`. -/

/-- Reduction of a word mod `2^32`. -/
def w32 (x : Nat) : Nat := x % 4294967296

/-- Right rotation of a 32-bit word. -/
def rotr (r x : Nat) : Nat := w32 ((x >>> r) ||| (x <<< (32 - r)))

/-- Round constants of SHA-256. -/
def sha256K : List Nat := List.flatten
  [[0x428a2f98, 0x71374491, 0xb5c0fbcf, 0xe9b5dba5, 0x3956c25b, 0x59f111f1],
   [0x923f82a4, 0xab1c5ed5, 0xd807aa98, 0x12835b01, 0x243185be, 0x550c7dc3],
   [0x72be5d74, 0x80deb1fe, 0x9bdc06a7, 0xc19bf174, 0xe49b69c1, 0xefbe4786],
   [0x0fc19dc6, 0x240ca1cc, 0x2de92c6f, 0x4a7484aa, 0x5cb0a9dc, 0x76f988da],
   [0x983e5152, 0xa831c66d, 0xb00327c8, 0xbf597fc7, 0xc6e00bf3, 0xd5a79147],
   [0x06ca6351, 0x14292967, 0x27b70a85, 0x2e1b2138, 0x4d2c6dfc, 0x53380d13],
   [0x650a7354, 0x766a0abb, 0x81c2c92e, 0x92722c85, 0xa2bfe8a1, 0xa81a664b],
   [0xc24b8b70, 0xc76c51a3, 0xd192e819, 0xd6990624, 0xf40e3585, 0x106aa070],
   [0x19a4c116, 0x1e376c08, 0x2748774c, 0x34b0bcb5, 0x391c0cb3, 0x4ed8aa4a],
   [0x5b9cca4f, 0x682e6ff3, 0x748f82ee, 0x78a5636f, 0x84c87814, 0x8cc70208],
   [0x90befffa, 0xa4506ceb, 0xbef9a3f7, 0xc67178f2]]

/-- Initial hash state of SHA-256. -/
def sha256H0 : List Nat := List.flatten
  [[0x6a09e667, 0xbb67ae85, 0x3c6ef372, 0xa54ff53a],
   [0x510e527f, 0x9b05688c, 0x1f83d9ab, 0x5be0cd19]]

/-- Big-endian 8-byte encoding of the 64-bit message bit length. -/
def beBytes8 (v : Nat) : List Nat :=
  (List.range 8).map (fun i => v >>> (8 * (7 - i)) % 256)

/-- Message padding: `0x80`, zeros to 56 mod 64, then the bit length. -/
def sha256Pad (msg : List Nat) : List Nat :=
  msg ++ [0x80] ++ List.replicate ((120 - (msg.length + 1) % 64) % 64) 0 ++ beBytes8 (8 * msg.length)

/-- Split a byte list into 64-byte blocks (structural fuel: each step drops
64 bytes of a nonempty list, so `l.length` steps always suffice). -/
def toBlocksAux : Nat → List Nat → List (List Nat)
  | 0, _ => []
  | fuel + 1, l => if l.isEmpty then [] else l.take 64 :: toBlocksAux fuel (l.drop 64)

/-- Split a byte list into 64-byte blocks. -/
def toBlocks (l : List Nat) : List (List Nat) :=
  toBlocksAux l.length l

/-- The 64-entry message schedule of one block. -/
def sha256Ws (block : List Nat) : List Nat :=
  let w0 := (List.range 16).map (fun i =>
    (block.getD (4 * i) 0) <<< 24 + (block.getD (4 * i + 1) 0) <<< 16 +
    (block.getD (4 * i + 2) 0) <<< 8 + block.getD (4 * i + 3) 0)
  (List.range 48).foldl (fun ws _ =>
    let t := ws.length
    let s0 := (rotr 7 (ws.getD (t - 15) 0)) ^^^ (rotr 18 (ws.getD (t - 15) 0)) ^^^
      ((ws.getD (t - 15) 0) >>> 3)
    let s1 := (rotr 17 (ws.getD (t - 2) 0)) ^^^ (rotr 19 (ws.getD (t - 2) 0)) ^^^
      ((ws.getD (t - 2) 0) >>> 10)
    ws ++ [w32 (ws.getD (t - 16) 0 + s0 + ws.getD (t - 7) 0 + s1)]) w0

/-- One compression round; the state is `(a, b, c, d, e, f, g, h)` and `kw`
is the pair of round constant and schedule word. -/
def sha256Round (st : Nat × Nat × Nat × Nat × Nat × Nat × Nat × Nat) (kw : Nat × Nat) :
    Nat × Nat × Nat × Nat × Nat × Nat × Nat × Nat :=
  match st with
  | (a, b, c, d, e, f, g, h) =>
    let S1 := (rotr 6 e) ^^^ (rotr 11 e) ^^^ (rotr 25 e)
    let ch := (e &&& f) ^^^ ((e ^^^ 0xffffffff) &&& g)
    let t1 := w32 (h + S1 + ch + kw.1 + kw.2)
    let S0 := (rotr 2 a) ^^^ (rotr 13 a) ^^^ (rotr 22 a)
    let mj := (a &&& b) ^^^ (a &&& c) ^^^ (b &&& c)
    let t2 := w32 (S0 + mj)
    (w32 (t1 + t2), a, b, c, w32 (d + t1), e, f, g)

/-- Compression of one 64-byte block into the running hash state. -/
def sha256Compress (h : List Nat) (block : List Nat) : List Nat :=
  let ws := sha256Ws block
  let f := (sha256K.zip ws).foldl sha256Round
    (h.getD 0 0, h.getD 1 0, h.getD 2 0, h.getD 3 0, h.getD 4 0, h.getD 5 0, h.getD 6 0, h.getD 7 0)
  match f with
  | (a, b, c, d, e, ff, g, hh) =>
    [w32 (h.getD 0 0 + a), w32 (h.getD 1 0 + b), w32 (h.getD 2 0 + c), w32 (h.getD 3 0 + d),
     w32 (h.getD 4 0 + e), w32 (h.getD 5 0 + ff), w32 (h.getD 6 0 + g), w32 (h.getD 7 0 + hh)]

/-- SHA-256 digest (32 bytes, big-endian words) of a byte list. -/
def sha256 (msg : List Nat) : List Nat :=
  ((toBlocks (sha256Pad msg)).foldl sha256Compress sha256H0).foldr
    (fun v acc => (List.range 4).map (fun i => v >>> (8 * (3 - i)) % 256) ++ acc) []

/-- UTF-8 encoding of one character. -/
def utf8CharBytes (c : Char) : List Nat :=
  let n := c.toNat
  if n < 0x80 then [n]
  else if n < 0x800 then [0xC0 ||| (n >>> 6), 0x80 ||| (n &&& 0x3F)]
  else if n < 0x10000 then
    [0xE0 ||| (n >>> 12), 0x80 ||| ((n >>> 6) &&& 0x3F), 0x80 ||| (n &&& 0x3F)]
  else
    [0xF0 ||| (n >>> 18), 0x80 ||| ((n >>> 12) &&& 0x3F), 0x80 ||| ((n >>> 6) &&& 0x3F),
     0x80 ||| (n &&& 0x3F)]

/-- Rust `str::as_bytes()`: the UTF-8 bytes of a string. -/
def strBytes (s : String) : List Nat := (s.data.map utf8CharBytes).flatten

/-- Guest `hash_content` (lines 87-91): SHA-256 of the content's bytes. -/
def hash_content (content : String) : List Nat := sha256 (strBytes content)

/-- Model of `usize::to_le_bytes()`: 8 little-endian bytes (64-bit target). -/
def usizeLeBytes (v : Nat) : List Nat := (List.range 8).map (fun i => v / 256 ^ i % 256)

/-- Tag byte written per operation by `create_proof_hash` (lines 266-270). -/
def opTag : DiffOperation → Nat
  | DiffOperation.Insert => 1
  | DiffOperation.Delete => 2
  | DiffOperation.Replace => 3

/-- Bytes `create_proof_hash` feeds to the hasher for one `DiffLine`
(lines 265-290): the tag byte; the little-endian `line_number_a` if present;
the little-endian `line_number_b` if present; then the payload selected by
`match (&line.content, line.redacted_length)`. -/
def lineHashBytes (line : DiffLine) : List Nat :=
  [opTag line.operation] ++
  (match line.line_number_a with
   | some line_a => usizeLeBytes line_a
   | none => []) ++
  (match line.line_number_b with
   | some line_b => usizeLeBytes line_b
   | none => []) ++
  (match line.content, line.redacted_length with
   | some content, _ => strBytes "content:" ++ strBytes content
   | none, some length => strBytes "redacted:" ++ usizeLeBytes length
   | none, none => [])

/-- Guest `DiffInput` (lines 5-12); the `[u8; 32]` digests as byte lists. -/
structure DiffInput where
  file_a_hash : List Nat
  file_b_hash : List Nat
  file_a_content : String
  file_b_content : String
  redaction_ranges : List RedactionRange
deriving DecidableEq, Repr

/-- Guest `create_proof_hash` (lines 260-293): the sequence of
`hasher.update` calls hashes the concatenation of the two digests and each
record's bytes, in order. -/
def create_proof_hash (input : DiffInput) (diff_lines : List DiffLine) : List Nat :=
  sha256 (input.file_a_hash ++ input.file_b_hash ++ (diff_lines.map lineHashBytes).flatten)

/-- Guest `DiffOutput` (lines 28-34). -/
structure DiffOutput where
  file_a_hash : List Nat
  file_b_hash : List Nat
  diff_lines : List DiffLine
  proof_hash : List Nat
deriving DecidableEq, Repr

/-- Failures of the two `assert_eq!` checks of guest `main` (lines 65-66),
its only failure paths. -/
inductive GuestError where
  | hashMismatchA
  | hashMismatchB
deriving DecidableEq, Repr

/-- Helper of `rustLines`: Rust `split_inclusive('\n')` over the character
list — the string is cut after every newline, a final piece without a newline
is kept, and an empty remainder yields no piece. -/
def splitInclNl (acc : List Char) : List Char → List (List Char)
  | [] => if acc.isEmpty then [] else [acc.reverse]
  | c :: cs =>
    if c = '\n' then (acc.reverse ++ [c]) :: splitInclNl [] cs
    else splitInclNl (c :: acc) cs

/-- Helper of `rustLines`: the per-piece map of `str::lines()` — strip one
trailing newline, and only if one was stripped also strip one trailing
carriage return. -/
def stripNl (l : List Char) : List Char :=
  match l.getLast? with
  | some c =>
    if c = '\n' then
      match l.dropLast.getLast? with
      | some c2 => if c2 = '\r' then l.dropLast.dropLast else l.dropLast
      | none => l.dropLast
    else l
  | none => l

/-- Rust `str::lines()` as used by guest `main` on lines 68-69. -/
def rustLines (s : String) : List String :=
  (splitInclNl [] s.data).map (fun l => String.mk (stripNl l))

/-- Guest `main` (lines 59-85) without the zkVM I/O: check the two claimed
digests against recomputed ones (the `assert_eq!` aborts are the `error`
results), then tokenize, diff, redact and hash. -/
def guestMain (input : DiffInput) : Except GuestError DiffOutput :=
  if input.file_a_hash ≠ hash_content input.file_a_content then
    Except.error GuestError.hashMismatchA
  else if input.file_b_hash ≠ hash_content input.file_b_content then
    Except.error GuestError.hashMismatchB
  else
    let lines_a := rustLines input.file_a_content
    let lines_b := rustLines input.file_b_content
    let edits := myers_diff lines_a lines_b
    let diff_lines := create_diff_lines edits lines_a lines_b input.redaction_ranges
    Except.ok ⟨input.file_a_hash, input.file_b_hash, diff_lines,
      create_proof_hash input diff_lines⟩

/-- Rust `str::parse::<usize>()`: an optional leading plus sign, then one or
more ASCII digits, with the value below `2^64` (otherwise overflow error). -/
def parseUsize (s : String) : Option Nat :=
  let cs := match s.data with
    | '+' :: rest => rest
    | cs => cs
  if cs ≠ [] ∧ cs.all Char.isDigit then
    let v := cs.foldl (fun acc c => acc * 10 + (c.toNat - 48)) 0
    if v < 18446744073709551616 then some v else none
  else none

/-- Rust `str::split(sep)` for a one-character separator: the pieces between
the separator occurrences, in order; splitting the empty string yields one
empty piece. -/
def splitOnChar (sep : Char) (acc : List Char) : List Char → List String
  | [] => [String.mk acc.reverse]
  | c :: cs =>
    if c = sep then String.mk acc.reverse :: splitOnChar sep [] cs
    else splitOnChar sep (c :: acc) cs

/-- The operation-name match of host `parse_redaction_ranges`
(host/src/main.rs, lines 278-283); an unknown name is `continue`. -/
def opOfName (s : String) : Option DiffOperation :=
  if s = "insert" ∨ s = "i" then some DiffOperation.Insert
  else if s = "delete" ∨ s = "d" then some DiffOperation.Delete
  else if s = "replace" ∨ s = "r" then some DiffOperation.Replace
  else none

/-- The `for range_str in redact_str.split(',')` loop of host
`parse_redaction_ranges` (lines 272-298).  Each `continue` skips the entry;
the `?` on a failing `parse::<usize>()` aborts the whole parse with `Err`. -/
def parseRangesLoop : List String → Except Unit (List RedactionRange)
  | [] => Except.ok []
  | range_str :: rest =>
    let parts := splitOnChar ':' [] range_str.data
    if parts.length ≠ 2 then parseRangesLoop rest
    else
      match opOfName (parts.getD 0 "") with
      | none => parseRangesLoop rest
      | some operation =>
        let range_parts := splitOnChar '-' [] (parts.getD 1 "").data
        if range_parts.length ≠ 2 then parseRangesLoop rest
        else
          match parseUsize (range_parts.getD 0 ""), parseUsize (range_parts.getD 1 "") with
          | some start_line, some end_line =>
            (parseRangesLoop rest).map (fun rs => ⟨start_line, end_line, operation⟩ :: rs)
          | _, _ => Except.error ()

/-- Host `parse_redaction_ranges` (lines 266-301). -/
def parse_redaction_ranges (redact_str : String) : Except Unit (List RedactionRange) :=
  if redact_str = "" then Except.ok []
  else parseRangesLoop (splitOnChar ',' [] redact_str.data)

/-! Specification-side notions used to state the claims. -/

/-- Number of `Insert` and `Delete` edits in a list. -/
def nonKeepCount (es : List Edit) : Nat :=
  (es.filter (fun e => e.operation ≠ EditOp.Keep)).length

/-- Semantics of applying an edit sequence (spec §8, edit-script validity):
`Keep` copies the line of `A` it points at, `Insert` emits the line of `B` it
points at, `Delete` emits nothing. -/
def applyEdits (a b : List α) : List Edit → List α
  | [] => []
  | e :: es =>
    match e.operation with
    | EditOp.Keep => (a.get? e.old_index).toList ++ applyEdits a b es
    | EditOp.Insert => (b.get? e.new_index).toList ++ applyEdits a b es
    | EditOp.Delete => applyEdits a b es

/-- Statement of spec §4.2: the edit list is a forward walk from position
`(x, y)` to `(|a|, |b|)` in which `Keep` consumes one (equal) line of both
sequences, `Delete` one line of `A`, and `Insert` one line of `B`, every edit
carrying the positions it consumes — so the walk covers every position of
both sequences exactly once. -/
inductive Covers (a b : List α) : Nat → Nat → List Edit → Prop where
  | nil : Covers a b a.length b.length []
  | keep {x y es} : x < a.length → y < b.length → a.get? x = b.get? y →
      Covers a b (x + 1) (y + 1) es → Covers a b x y (⟨EditOp.Keep, x, y⟩ :: es)
  | del {x y es} : x < a.length →
      Covers a b (x + 1) y es → Covers a b x y (⟨EditOp.Delete, x, y⟩ :: es)
  | ins {x y es} : y < b.length →
      Covers a b x (y + 1) es → Covers a b x y (⟨EditOp.Insert, x, y⟩ :: es)

/-- Transformation of one line sequence into another by `d` single-line
insertions and deletions (spec §4.1: the line-level edit distance is the least
such `d`). -/
inductive Transforms : List α → List α → Nat → Prop where
  | nil : Transforms [] [] 0
  | keep {c as bs d} : Transforms as bs d → Transforms (c :: as) (c :: bs) d
  | del {c as bs d} : Transforms as bs d → Transforms (c :: as) bs (d + 1)
  | ins {c as bs d} : Transforms as bs d → Transforms as (c :: bs) (d + 1)

/-- Reachability in the Myers edit graph: `(x, y)` can be reached from
`(0, 0)` with exactly `d` non-diagonal steps (each diagonal step requires
equal lines). -/
inductive Reach (a b : List α) : Nat → Nat → Nat → Prop where
  | start : Reach a b 0 0 0
  | del {d x y} : Reach a b d x y → x < a.length → Reach a b (d + 1) (x + 1) y
  | ins {d x y} : Reach a b d x y → y < b.length → Reach a b (d + 1) x (y + 1)
  | diag {d x y} : Reach a b d x y → x < a.length → y < b.length →
      a.get? x = b.get? y → Reach a b d (x + 1) (y + 1)

/-- Forward walk from `(0, 0)` up to `(x, y)`, edits accumulated at the end;
the reversal-friendly mirror of `Covers`. -/
inductive PathTo (a b : List α) : Nat → Nat → List Edit → Prop where
  | nil : PathTo a b 0 0 []
  | keep {x y es} : PathTo a b x y es → x < a.length → y < b.length →
      a.get? x = b.get? y → PathTo a b (x + 1) (y + 1) (es ++ [⟨EditOp.Keep, x, y⟩])
  | del {x y es} : PathTo a b x y es → x < a.length →
      PathTo a b (x + 1) y (es ++ [⟨EditOp.Delete, x, y⟩])
  | ins {x y es} : PathTo a b x y es → y < b.length →
      PathTo a b x (y + 1) (es ++ [⟨EditOp.Insert, x, y⟩])

/-- Record encoding as worded in the specification of the commitment (spec
§4.4): a 1-byte operation tag (Insert=1, Delete=2, Replace=3), the populated
line-number field(s) as fixed-width little-endian integers, then the
domain-separated payload — `"content:"` and the UTF-8 line bytes when content
is present, or `"redacted:"` and the little-endian length when redacted. -/
def specRecordBytes (r : DiffLine) : List Nat :=
  (match r.operation with
   | DiffOperation.Insert => [1]
   | DiffOperation.Delete => [2]
   | DiffOperation.Replace => [3]) ++
  (r.line_number_a.elim [] usizeLeBytes) ++
  (r.line_number_b.elim [] usizeLeBytes) ++
  (match r.content with
   | some c => strBytes "content:" ++ strBytes c
   | none =>
     match r.redacted_length with
     | some l => strBytes "redacted:" ++ usizeLeBytes l
     | none => [])

/-- Byte stream the specification says the commitment hashes: digest A,
digest B, then every record's encoding in order. -/
def specStream (digestA digestB : List Nat) (records : List DiffLine) : List Nat :=
  digestA ++ digestB ++ (records.map specRecordBytes).flatten

/-- The edit list consisting of `Keep` edits at positions `0, …, n-1` of both
sequences (what the solver produces on identical inputs). -/
def keepEdits (n : Nat) : List Edit :=
  (List.range n).map (fun i => ⟨EditOp.Keep, i, i⟩)

/-- The record `create_diff_lines` builds for a deleted line at 0-based old
index `i` (its `EditOp.Delete` arm). -/
def deleteRecord (lines_a : List String) (ranges : List RedactionRange) (i : Nat) : DiffLine :=
  let line_content := lines_a.getD i ""
  let sr := should_redact_line i DiffOperation.Delete ranges
  ⟨some (i + 1), none, DiffOperation.Delete,
    if sr then none else some line_content,
    if sr then some line_content.utf8ByteSize else none⟩

/-- The record `create_diff_lines` builds for an inserted line at 0-based new
index `j` (its `EditOp.Insert` arm). -/
def insertRecord (lines_b : List String) (ranges : List RedactionRange) (j : Nat) : DiffLine :=
  let line_content := lines_b.getD j ""
  let sr := should_redact_line j DiffOperation.Insert ranges
  ⟨none, some (j + 1), DiffOperation.Insert,
    if sr then none else some line_content,
    if sr then some line_content.utf8ByteSize else none⟩

/-- Classification of one redaction-spec entry, used to state how the parser
treats it: `dropped` when a structure or operation-name check fails (the
`continue` paths), `fatal` when the structure and name are fine but a bound
is not a numeral (the `?` paths), `good` when it parses. -/
inductive EntryShape where
  | dropped
  | fatal
  | good (start_line end_line : Nat) (operation : DiffOperation)
deriving DecidableEq, Repr

/-- The classification of one entry, following the checks of
`parse_redaction_ranges` in source order. -/
def entryShape (entry : String) : EntryShape :=
  let parts := splitOnChar ':' [] entry.data
  if parts.length ≠ 2 then EntryShape.dropped
  else
    match opOfName (parts.getD 0 "") with
    | none => EntryShape.dropped
    | some operation =>
      let range_parts := splitOnChar '-' [] (parts.getD 1 "").data
      if range_parts.length ≠ 2 then EntryShape.dropped
      else
        match parseUsize (range_parts.getD 0 ""), parseUsize (range_parts.getD 1 "") with
        | some start_line, some end_line => EntryShape.good start_line end_line operation
        | _, _ => EntryShape.fatal


/-- Step behaviour of the redaction-spec parser on one entry. -/
theorem parseRangesLoop_cons (entry : String) (rest : List String) :
    parseRangesLoop (entry :: rest) =
      (match entryShape entry with
       | EntryShape.dropped => parseRangesLoop rest
       | EntryShape.fatal => Except.error ()
       | EntryShape.good s e op =>
         (parseRangesLoop rest).map (fun rs => ⟨s, e, op⟩ :: rs)) := by
  show (let parts := splitOnChar ':' [] entry.data
    if parts.length ≠ 2 then parseRangesLoop rest
    else
      match opOfName (parts.getD 0 "") with
      | none => parseRangesLoop rest
      | some operation =>
        let range_parts := splitOnChar '-' [] (parts.getD 1 "").data
        if range_parts.length ≠ 2 then parseRangesLoop rest
        else
          match parseUsize (range_parts.getD 0 ""), parseUsize (range_parts.getD 1 "") with
          | some start_line, some end_line =>
            (parseRangesLoop rest).map (fun rs => ⟨start_line, end_line, operation⟩ :: rs)
          | _, _ => Except.error ()) = _
  unfold entryShape
  by_cases h1 : (splitOnChar ':' [] entry.data).length ≠ 2
  · simp only [if_pos h1]
  · simp only [if_neg h1]
    cases h2 : opOfName ((splitOnChar ':' [] entry.data).getD 0 "") with
    | none => rfl
    | some operation =>
      by_cases h3 : (splitOnChar '-' [] ((splitOnChar ':' [] entry.data).getD 1 "").data).length ≠ 2
      · simp only [if_pos h3]
      · simp only [if_neg h3]
        cases h4 : parseUsize ((splitOnChar '-' [] ((splitOnChar ':' [] entry.data).getD 1 "").data).getD 0 "") with
        | none =>
          cases h5 : parseUsize ((splitOnChar '-' [] ((splitOnChar ':' [] entry.data).getD 1 "").data).getD 1 "") <;> rfl
        | some s =>
          cases h5 : parseUsize ((splitOnChar '-' [] ((splitOnChar ':' [] entry.data).getD 1 "").data).getD 1 "") <;> rfl

/-- C3 counterexample: on the spec string `"i:1-2,d:x-5"` the claim says the
malformed second entry is dropped and `[{Insert, 1, 2}]` is returned; the
parser instead aborts fatally, because a non-numeric bound propagates an
error through the `?` operator. -/
theorem parse_nonnumeric_entry_fatal :
    parse_redaction_ranges "i:1-2,d:x-5" = Except.error () := rfl

/-- C3 amended: an entry whose structure is malformed (not exactly two
colon-separated parts, an unknown operation name, or not exactly two
dash-separated bounds) is dropped and parsing continues with the remaining
entries; but an entry passing those checks whose start or end bound is not a
`usize` numeral makes the whole parse fail with an error, and a well-formed
entry contributes its range in order. -/
theorem parse_entry_skip_or_abort (entry : String) (rest : List String) :
    (entryShape entry = EntryShape.dropped →
      parseRangesLoop (entry :: rest) = parseRangesLoop rest) ∧
    (entryShape entry = EntryShape.fatal →
      parseRangesLoop (entry :: rest) = Except.error ()) ∧
    (∀ s e op, entryShape entry = EntryShape.good s e op →
      parseRangesLoop (entry :: rest) =
        (parseRangesLoop rest).map (fun rs => ⟨s, e, op⟩ :: rs)) := by
  refine ⟨?_, ?_, ?_⟩
  · intro h
    rw [parseRangesLoop_cons, h]
  · intro h
    rw [parseRangesLoop_cons, h]
  · intro s e op h
    rw [parseRangesLoop_cons, h]

/-- Witness for the parser step behaviour at concrete entries: `"bogus"` and
`"q:1-2"` are dropped, `"d:x-5"` aborts the parse, `"i:1-2"` contributes its
range. -/
theorem parse_entry_skip_or_abort_witness :
    parseRangesLoop ["bogus"] = parseRangesLoop [] ∧
    parseRangesLoop ["q:1-2"] = parseRangesLoop [] ∧
    parseRangesLoop ["d:x-5"] = Except.error () ∧
    parseRangesLoop ["i:1-2"] =
      (parseRangesLoop []).map (fun rs => ⟨1, 2, DiffOperation.Insert⟩ :: rs) := by
  refine ⟨(parse_entry_skip_or_abort "bogus" []).1 (by decide),
    (parse_entry_skip_or_abort "q:1-2" []).1 (by decide),
    (parse_entry_skip_or_abort "d:x-5" []).2.1 (by decide),
    (parse_entry_skip_or_abort "i:1-2" []).2.2 1 2 DiffOperation.Insert (by decide)⟩

/-- Step equation of `create_diff_lines` on a `Keep` edit: no record. -/
theorem create_diff_lines_keep (e : Edit) (rest : List Edit)
    (lines_a lines_b : List String) (ranges : List RedactionRange)
    (he : e.operation = EditOp.Keep) :
    create_diff_lines (e :: rest) lines_a lines_b ranges =
      create_diff_lines rest lines_a lines_b ranges := by
  obtain ⟨op, oi, ni⟩ := e
  cases op with
  | Keep => rfl
  | Delete => exact absurd he (by simp)
  | Insert => exact absurd he (by simp)

/-- Step equation of `create_diff_lines` on a `Delete` edit. -/
theorem create_diff_lines_delete (e : Edit) (rest : List Edit)
    (lines_a lines_b : List String) (ranges : List RedactionRange)
    (he : e.operation = EditOp.Delete) :
    create_diff_lines (e :: rest) lines_a lines_b ranges =
      deleteRecord lines_a ranges e.old_index :: create_diff_lines rest lines_a lines_b ranges := by
  obtain ⟨op, oi, ni⟩ := e
  cases op with
  | Delete => rfl
  | Keep => exact absurd he (by simp)
  | Insert => exact absurd he (by simp)

/-- Step equation of `create_diff_lines` on an `Insert` edit. -/
theorem create_diff_lines_insert (e : Edit) (rest : List Edit)
    (lines_a lines_b : List String) (ranges : List RedactionRange)
    (he : e.operation = EditOp.Insert) :
    create_diff_lines (e :: rest) lines_a lines_b ranges =
      insertRecord lines_b ranges e.new_index :: create_diff_lines rest lines_a lines_b ranges := by
  obtain ⟨op, oi, ni⟩ := e
  cases op with
  | Insert => rfl
  | Keep => exact absurd he (by simp)
  | Delete => exact absurd he (by simp)

/-- Properties every produced record satisfies (stated over a record). -/
def RecordInv (l : DiffLine) : Prop :=
  (l.content.isSome ↔ l.redacted_length = none) ∧
  l.operation ≠ DiffOperation.Replace ∧
  (l.operation = DiffOperation.Delete →
    l.line_number_b = none ∧ ∃ i, l.line_number_a = some (i + 1)) ∧
  (l.operation = DiffOperation.Insert →
    l.line_number_a = none ∧ ∃ j, l.line_number_b = some (j + 1))

/-- A delete record satisfies the invariants. -/
theorem recordInv_deleteRecord (lines_a : List String) (ranges : List RedactionRange) (i : Nat) :
    RecordInv (deleteRecord lines_a ranges i) := by
  unfold RecordInv deleteRecord
  by_cases hsr : should_redact_line i DiffOperation.Delete ranges = true <;>
    refine ⟨by simp [hsr], by simp, by intro _; exact ⟨rfl, i, rfl⟩, by simp⟩

/-- An insert record satisfies the invariants. -/
theorem recordInv_insertRecord (lines_b : List String) (ranges : List RedactionRange) (j : Nat) :
    RecordInv (insertRecord lines_b ranges j) := by
  unfold RecordInv insertRecord
  by_cases hsr : should_redact_line j DiffOperation.Insert ranges = true <;>
    refine ⟨by simp [hsr], by simp, by simp, by intro _; exact ⟨rfl, j, rfl⟩⟩

/-- C7: every record built by `create_diff_lines` has exactly one of content
and redacted length present, is never a `Replace` (and no record exists for a
`Keep`), populates only `line_number_a` (1-based) for a `Delete` and only
`line_number_b` (1-based) for an `Insert`; and the number of records equals
the number of non-`Keep` edits, so a `Keep` never produces a record. -/
theorem diff_record_invariants (edits : List Edit) (lines_a lines_b : List String)
    (ranges : List RedactionRange) :
    (∀ l ∈ create_diff_lines edits lines_a lines_b ranges,
      (l.content.isSome ↔ l.redacted_length = none) ∧
      l.operation ≠ DiffOperation.Replace ∧
      (l.operation = DiffOperation.Delete →
        l.line_number_b = none ∧ ∃ i, l.line_number_a = some (i + 1)) ∧
      (l.operation = DiffOperation.Insert →
        l.line_number_a = none ∧ ∃ j, l.line_number_b = some (j + 1))) ∧
    (create_diff_lines edits lines_a lines_b ranges).length = nonKeepCount edits := by
  induction edits with
  | nil => exact ⟨by simp [create_diff_lines], by simp [create_diff_lines, nonKeepCount]⟩
  | cons e rest ih =>
    cases he : e.operation with
    | Keep =>
      rw [create_diff_lines_keep e rest lines_a lines_b ranges he]
      refine ⟨ih.1, ?_⟩
      rw [ih.2]
      simp [nonKeepCount, he]
    | Delete =>
      rw [create_diff_lines_delete e rest lines_a lines_b ranges he]
      constructor
      · intro l hl
        rcases List.mem_cons.mp hl with h | h
        · exact h ▸ recordInv_deleteRecord lines_a ranges e.old_index
        · exact ih.1 l h
      · simp only [List.length_cons, ih.2]
        simp [nonKeepCount, he]
    | Insert =>
      rw [create_diff_lines_insert e rest lines_a lines_b ranges he]
      constructor
      · intro l hl
        rcases List.mem_cons.mp hl with h | h
        · exact h ▸ recordInv_insertRecord lines_b ranges e.new_index
        · exact ih.1 l h
      · simp only [List.length_cons, ih.2]
        simp [nonKeepCount, he]

/-- Witness for the record invariants at a concrete input (spec example 1
with a redaction on the deleted line). -/
theorem diff_record_invariants_witness :
    (∀ l ∈ create_diff_lines (myers_diff ["one", "two", "three"] ["one", "three", "four"])
        ["one", "two", "three"] ["one", "three", "four"] [⟨2, 3, DiffOperation.Delete⟩],
      (l.content.isSome ↔ l.redacted_length = none) ∧
      l.operation ≠ DiffOperation.Replace ∧
      (l.operation = DiffOperation.Delete →
        l.line_number_b = none ∧ ∃ i, l.line_number_a = some (i + 1)) ∧
      (l.operation = DiffOperation.Insert →
        l.line_number_a = none ∧ ∃ j, l.line_number_b = some (j + 1))) ∧
    (create_diff_lines (myers_diff ["one", "two", "three"] ["one", "three", "four"])
        ["one", "two", "three"] ["one", "three", "four"] [⟨2, 3, DiffOperation.Delete⟩]).length =
      nonKeepCount (myers_diff ["one", "two", "three"] ["one", "three", "four"]) :=
  diff_record_invariants (myers_diff ["one", "two", "three"] ["one", "three", "four"])
    ["one", "two", "three"] ["one", "three", "four"] [⟨2, 3, DiffOperation.Delete⟩]


/-! Proof infrastructure for the solver: a functional description of the
per-level reach values the loop stores, and the invariants tied to them. -/

/-- Parity agreement between a diagonal and a level: cells `(d, k)` are
written by the loop exactly when `|k| ≤ d` and `k ≡ d (mod 2)`. -/
def sameParity (d : Nat) (j : Int) : Prop := (j - (d : Int)) % 2 = 0

instance sameParityDec (d : Nat) (j : Int) : Decidable (sameParity d j) :=
  inferInstanceAs (Decidable ((j - (d : Int)) % 2 = 0))

/-- The value the inner loop stores at level `d` for diagonal `k`
(meaningful for `k ∈ kList d`): the reach after the greedy snake from the
chosen neighbour value.  Reads of the previous level's array see `0` outside
the written region, which is what the `natAbs` guard reproduces. -/
def mV (a b : List α) : Nat → Int → Int
  | 0, k => (snakeExt a b 0 (0 - k)).1
  | d + 1, k =>
    let w : Int → Int := fun j => if j.natAbs ≤ d then mV a b d j else 0
    let x0 : Int := if fwdTakesInsert w ((d + 1 : Nat) : Int) k then w (k + 1) else w (k - 1) + 1
    (snakeExt a b x0 (x0 - k)).1

/-- The previous-level read function of level `d + 1`. -/
def mW (a b : List α) (d : Nat) : Int → Int :=
  fun j => if j.natAbs ≤ d then mV a b d j else 0

/-- The pre-snake value of level `d + 1` at diagonal `k`. -/
def x0V (a b : List α) (d : Nat) (k : Int) : Int :=
  if fwdTakesInsert (mW a b d) ((d + 1 : Nat) : Int) k then mW a b d (k + 1)
  else mW a b d (k - 1) + 1

/-- The early-return test of the inner loop, on a point. -/
def atEnd (n m : Nat) (X Y : Int) : Prop :=
  (X < 0 ∨ n ≤ X.toNat) ∧ (Y < 0 ∨ m ≤ Y.toNat)

/-- The early-return test holds at cell `(d, k)`. -/
def Passes (a b : List α) (d : Nat) (k : Int) : Prop :=
  atEnd a.length b.length (mV a b d k) (mV a b d k - k)

/-- No cell of a level below `d` satisfies the early-return test (the loop
reaches level `d` exactly when this holds). -/
def NoPassBelow (a b : List α) (d : Nat) : Prop :=
  ∀ e, e < d → ∀ k ∈ kList e, ¬Passes a b e k

/-- Contents of the reach array after level `d` completes. -/
def vAfter (a b : List α) (d : Nat) : Int → Int := fun j =>
  if j.natAbs ≤ d ∧ sameParity d j then mV a b d j
  else if 1 ≤ d ∧ j.natAbs + 1 ≤ d ∧ sameParity (d - 1) j then mV a b (d - 1) j
  else 0

/-- Contents of the reach array at the top of level `d` (what the loop pushes
into the trace there). -/
def vBefore (a b : List α) (d : Nat) : Int → Int :=
  if d = 0 then (fun _ => 0) else vAfter a b (d - 1)

/-- The trace contents when the solver returns at level `e`. -/
def traceUpTo (a b : List α) (e : Nat) : List (Int → Int) :=
  (List.range (e + 1)).map (vBefore a b)

/-- Contents of the reach array mid-level `d`, with the cells left of the
cursor `c` already rewritten. -/
def midV (a b : List α) (d : Nat) (c : Int) : Int → Int := fun j =>
  if j.natAbs ≤ d ∧ sameParity d j ∧ j < c then mV a b d j else vBefore a b d j

/-- Classification of a stored value `X` on diagonal `k` at level `D`:
either a genuine in-grid reach (with a path certificate), or an overshoot
past the right edge (`X > n`, certified at an earlier level on the edge), or
an overshoot past the bottom edge. -/
def TriPt (a b : List α) (D : Nat) (k X : Int) : Prop :=
  (0 ≤ X ∧ X ≤ a.length ∧ 0 ≤ X - k ∧ X - k ≤ b.length ∧
    Reach a b D X.toNat (X - k).toNat) ∨
  ((a.length : Int) < X ∧ 0 ≤ X - k ∧ X - k ≤ b.length ∧ 1 ≤ X - a.length ∧
    (X - a.length).toNat ≤ D ∧
    Reach a b (D - (X - a.length).toNat) a.length (X - k).toNat) ∨
  ((b.length : Int) < X - k ∧ 0 ≤ X ∧ X ≤ a.length ∧ 1 ≤ X - k - b.length ∧
    (X - k - b.length).toNat ≤ D ∧
    Reach a b (D - (X - k - b.length).toNat) X.toNat b.length)

/-- The solver returns at level `e`: some cell of level `e` passes the
early-return test and none of any earlier level does. -/
def FirstPass (a b : List α) (e : Nat) : Prop :=
  (∃ k ∈ kList e, Passes a b e k) ∧ NoPassBelow a b e

/-- A forward run of `t` `Keep` edits starting at positions `(p, q)`. -/
def keepsBetween (p q t : Nat) : List Edit :=
  (List.range t).map (fun i => ⟨EditOp.Keep, p + i, q + i⟩)

/-- Positions of `A` consumed by an edit list (`Keep` and `Delete` edits). -/
def consumedA (es : List Edit) : List Nat :=
  es.filterMap (fun e => if e.operation = EditOp.Insert then none else some e.old_index)

/-- Positions of `B` consumed by an edit list (`Keep` and `Insert` edits). -/
def consumedB (es : List Edit) : List Nat :=
  es.filterMap (fun e => if e.operation = EditOp.Delete then none else some e.new_index)

/-- The pre-snake value the inner loop computes for diagonal `k` at level
`d`: `0` at level `0` (the initial array is all zeroes and `k = 0` takes the
insertion neighbour), else the chosen neighbour reach of `x0V`. -/
def preX (a b : List α) : Nat → Int → Int
  | 0, _ => 0
  | d + 1, k => x0V a b d k

instance passesDec (a b : List α) (d : Nat) (k : Int) : Decidable (Passes a b d k) :=
  inferInstanceAs (Decidable ((mV a b d k < 0 ∨ a.length ≤ (mV a b d k).toNat) ∧
    (mV a b d k - k < 0 ∨ b.length ≤ (mV a b d k - k).toNat)))

end ZkDiff

/-! Theorems. -/

namespace ZkDiff

variable {α : Type} [DecidableEq α]

/-- Per-record encoding of the source hasher equals the encoding worded in
the specification. -/
theorem lineHashBytes_eq_specRecordBytes (l : DiffLine) :
    lineHashBytes l = specRecordBytes l := by
  obtain ⟨na, nb, op, c, rl⟩ := l
  cases op <;> cases c <;> cases rl <;> cases na <;> cases nb <;> rfl

/-- C8: for every pair of input digests and every record sequence, the
commitment hash is the SHA-256 digest of the byte stream formed by digest A,
digest B, and then for each record in order its tag byte
(Insert=1, Delete=2, Replace=3), the populated line-number fields as
fixed-width little-endian integers, and the domain-separated payload
(`"content:"` plus the UTF-8 line when content is present, otherwise
`"redacted:"` plus the little-endian length when redacted); the computation
only ever reads the record fields. -/
theorem proof_hash_matches_spec_stream (input : DiffInput) (diff_lines : List DiffLine) :
    create_proof_hash input diff_lines =
      sha256 (specStream input.file_a_hash input.file_b_hash diff_lines) := by
  unfold create_proof_hash specStream
  congr 3
  exact List.map_congr_left (fun l _ => lineHashBytes_eq_specRecordBytes l)

/-- C1: the claim says a `Replace` redaction range redacts `Delete` (and
`Insert`) records inside its interval; the code compares the range operation
with equality, so a `Replace` range redacts nothing.  At the failing input —
a `Delete` record of line 1 of `A = ["x"]` under the range
`{start_line 1, end_line 2, operation Replace}` — the record keeps its
content and `should_redact_line` answers `false` even at an in-interval
index. -/
theorem replace_range_does_not_redact :
    should_redact_line 1 DiffOperation.Delete [⟨1, 5, DiffOperation.Replace⟩] = false ∧
    create_diff_lines (myers_diff ["x"] ([] : List String)) ["x"] []
      [⟨1, 2, DiffOperation.Replace⟩] =
      [⟨some 1, none, DiffOperation.Delete, some "x", none⟩] := by
  exact ⟨by decide, by decide⟩

/-- C2: the claim says inputs whose combined size exceeds a configured
ceiling fail fast with a resource-limit error; the guest has no such check —
for every pair of contents (of any size) with correctly recomputed digests
the pipeline runs to completion and returns a diff output, and its only error
paths are the two digest assertions. -/
theorem guest_diff_total_no_size_limit (ca cb : String) (ranges : List RedactionRange) :
    ∃ out : DiffOutput,
      guestMain ⟨hash_content ca, hash_content cb, ca, cb, ranges⟩ = Except.ok out := by
  unfold guestMain
  rw [if_neg (by simp), if_neg (by simp)]
  exact ⟨_, rfl⟩

/-- C6 counterexample: the claim says the insertion-producing neighbour
`k + 1` is chosen whenever the two neighbours' previous reaches are equal or
`k` is at a boundary (`k = -d` or `k = d`).  At `d = 2, k = 0` with equal
reaches, and at the boundary `d = 1, k = 1`, the code selects the
deletion-producing neighbour instead (the test is `false`). -/
theorem tie_break_prefers_deletion_example :
    fwdTakesInsert (fun _ => 0) 2 0 = false ∧ fwdTakesInsert (fun _ => 0) 1 1 = false := by
  exact ⟨by decide, by decide⟩

/-- C6 amended: the solver and the reconstructor use the identical
diagonal-selection rule, and that rule is: take the insertion-producing
neighbour `k + 1` exactly when `k = -d`, or when `k` is interior (`k ≠ ±d`)
and the previous reach on `k - 1` is strictly below the one on `k + 1`; in
particular at equal reaches away from `-d`, and at the boundary `k = d ≠ -d`,
the deletion-producing neighbour `k - 1` is taken. -/
theorem tie_break_rule_shared (v : Int → Int) (d k : Int) :
    backTakesInsert v d k = fwdTakesInsert v d k ∧
    (k = -d → fwdTakesInsert v d k = true) ∧
    (k ≠ -d → k = d → fwdTakesInsert v d k = false) ∧
    (k ≠ -d → v (k - 1) = v (k + 1) → fwdTakesInsert v d k = false) ∧
    (k ≠ -d → k ≠ d → v (k - 1) < v (k + 1) → fwdTakesInsert v d k = true) := by
  refine ⟨rfl, ?_, ?_, ?_, ?_⟩
  · intro h
    simp [fwdTakesInsert, h]
  · intro h1 h2
    subst h2
    simp [fwdTakesInsert, h1]
  · intro h1 h2
    simp [fwdTakesInsert, h1, h2]
  · intro h1 h2 h3
    simp [fwdTakesInsert, h1, h2, h3]

/-- Witness for the tie-break rule at concrete inputs: at `d = 1, k = -1` the
insertion neighbour is taken, at `d = 1, k = 1` it is not, and at
`d = 2, k = 0` with equal reaches it is not; forward and backward tests
agree. -/
theorem tie_break_rule_shared_witness :
    backTakesInsert (fun _ => 0) 1 (-1) = fwdTakesInsert (fun _ => 0) 1 (-1) ∧
    fwdTakesInsert (fun _ => 0) 1 (-1) = true ∧
    fwdTakesInsert (fun _ => 0) 1 1 = false ∧
    fwdTakesInsert (fun _ => 0) 2 0 = false := by
  refine ⟨(tie_break_rule_shared (fun _ => 0) 1 (-1)).1,
    (tie_break_rule_shared (fun _ => 0) 1 (-1)).2.1 rfl,
    (tie_break_rule_shared (fun _ => 0) 1 1).2.2.1 (by decide) rfl,
    (tie_break_rule_shared (fun _ => 0) 2 0).2.2.2.1 (by decide) rfl⟩


/-- The snake extension on identical sequences runs all the way to the end. -/
theorem snakeAux_self (a : List α) :
    ∀ (fuel : Nat) (x : Int), 0 ≤ x → x.toNat ≤ a.length → a.length - x.toNat < fuel →
    snakeAux a a fuel x x = ((a.length : Int), (a.length : Int)) := by
  intro fuel
  induction fuel with
  | zero => intro x _ _ h; omega
  | succ fuel ih =>
    intro x h0 hle hf
    by_cases hlt : x.toNat < a.length
    · simp only [snakeAux]
      rw [if_pos ⟨h0, h0, hlt, hlt, trivial⟩]
      exact ih (x + 1) (by omega) (by omega) (by omega)
    · have hx : x = (a.length : Int) := by omega
      subst hx
      simp only [snakeAux]
      rw [if_neg (fun h => absurd h.2.2.1 (by omega))]

/-- Starting at the origin on identical sequences, the snake reaches the
common end. -/
theorem snakeExt_self (a : List α) :
    snakeExt a a 0 0 = ((a.length : Int), (a.length : Int)) :=
  snakeAux_self a (a.length + 1) 0 le_rfl (by simp) (by simp)

/-- The backtrack snake from `(x, x)` towards `(0, -1)` walks the diagonal to
the origin, emitting the `Keep` edits in descending order. -/
theorem backSnakeAux_diag :
    ∀ (x : Nat) (ed : List Edit), backSnakeAux 0 (-1) x (x : Int) (x : Int) ed =
      ((0 : Int), (0 : Int), ed ++ (keepEdits x).reverse) := by
  intro x
  induction x with
  | zero => intro ed; simp [backSnakeAux, keepEdits]
  | succ x ih =>
    intro ed
    simp only [backSnakeAux]
    rw [if_pos (by constructor <;> [omega; omega])]
    have h1 : ((x + 1 : Nat) : Int) - 1 = (x : Int) := by push_cast; ring
    rw [h1]
    simp only [Int.toNat_natCast]
    have hih := ih (ed ++ [Edit.mk EditOp.Keep x x])
    rw [hih]
    have h3 : keepEdits (x + 1) = keepEdits x ++ [⟨EditOp.Keep, x, x⟩] := by
      unfold keepEdits
      rw [List.range_succ, List.map_append]
      rfl
    rw [h3]
    simp

/-- Same statement through the `backSnake` wrapper. -/
theorem backSnake_diag (x : Nat) (ed : List Edit) :
    backSnake 0 (-1) (x : Int) (x : Int) ed = ((0 : Int), (0 : Int), ed ++ (keepEdits x).reverse) := by
  unfold backSnake
  have h : ((x : Int) - 0).toNat = x := by omega
  rw [h]
  exact backSnakeAux_diag x ed

/-- Unfolding of the inner solver loop on a cons cell. -/
theorem innerLoop_cons (a b : List α) (trace : List (Int → Int)) (d : Nat)
    (v : Int → Int) (k : Int) (ks : List Int) :
    innerLoop a b trace d v (k :: ks) =
      (let x := if fwdTakesInsert v (d : Int) k then v (k + 1) else v (k - 1) + 1
       let p := snakeExt a b x (x - k)
       if (p.1 < 0 ∨ a.length ≤ p.1.toNat) ∧ (p.2 < 0 ∨ b.length ≤ p.2.toNat) then
         Sum.inr (backtrack trace a b d)
       else innerLoop a b trace d (fun j => if j = k then p.1 else v j) ks) := rfl

/-- The singleton diagonal list of level 0. -/
theorem kList_zero : kList 0 = [0] := rfl

/-- Backtracking at distance 0 over sequences of equal length yields the
`Keep` run. -/
theorem backtrack_zero_self (a : List α) (trace : List (Int → Int)) :
    backtrack trace a a 0 = keepEdits a.length := by
  unfold backtrack
  rw [show (List.range (0 + 1)).reverse = [0] from rfl]
  unfold backLoop
  simp only [sub_self]
  rw [show backTakesInsert (trace.getD 0 (fun _ => 0)) ((0 : Nat) : Int) 0 = true by
    simp [backTakesInsert]]
  simp only [if_pos, reduceIte, lt_irrefl]
  rw [show ((0 : Int) - (0 + 1)) = (-1 : Int) by ring]
  rw [backSnake_diag a.length []]
  unfold backLoop
  simp

/-- On identical inputs the solver returns at distance 0 with the pure `Keep`
edit sequence. -/
theorem myers_self (a : List α) : myers_diff a a = keepEdits a.length := by
  have hsnake : snakeExt a a 0 (0 - 0) = ((a.length : Int), (a.length : Int)) := by
    rw [show ((0 : Int) - 0) = (0 : Int) from rfl]
    exact snakeExt_self a
  have hinner : innerLoop a a [fun _ => 0] 0 (fun _ => 0) [0] =
      Sum.inr (backtrack [fun _ => 0] a a 0) := by
    rw [innerLoop_cons]
    simp only [show (if fwdTakesInsert (fun _ => (0 : Int)) ((0 : Nat) : Int) 0
      then (fun _ => (0 : Int)) (0 + 1) else (fun _ => (0 : Int)) (0 - 1) + 1) = (0 : Int)
      from rfl, hsnake]
    rw [if_pos ⟨Or.inr (by simp), Or.inr (by simp)⟩]
  unfold myers_diff outerLoop
  rw [kList_zero, List.nil_append, hinner]
  exact backtrack_zero_self a _

/-- Records of an all-`Keep` edit list: none. -/
theorem create_diff_lines_all_keep (edits : List Edit)
    (hk : ∀ e ∈ edits, e.operation = EditOp.Keep)
    (lines_a lines_b : List String) (ranges : List RedactionRange) :
    create_diff_lines edits lines_a lines_b ranges = [] := by
  induction edits with
  | nil => rfl
  | cons e rest ih =>
    rw [create_diff_lines_keep e rest lines_a lines_b ranges (hk e (by simp))]
    exact ih (fun e he => hk e (List.mem_cons_of_mem _ he))


/-- Stripping does nothing to a piece that does not end in a newline. -/
theorem stripNl_no_newline (l : List Char) (h : l.getLast? ≠ some (Char.ofNat 10)) :
    stripNl l = l := by
  unfold stripNl
  split
  · rename_i c hl
    rw [if_neg (fun hc : c = Char.ofNat 10 => h (hc ▸ hl))]
  · rfl

/-- Appending a newline to a piece not ending in a carriage return strips
back to the piece. -/
theorem stripNl_append_nl (l : List Char) (h : l.getLast? ≠ some (Char.ofNat 13)) :
    stripNl (l ++ [Char.ofNat 10]) = l := by
  unfold stripNl
  split
  · rename_i c hl
    rw [List.getLast?_concat] at hl
    injection hl with hc
    subst hc
    rw [if_pos rfl, List.dropLast_concat]
    split
    · rename_i c2 hl2
      rw [if_neg (fun hc2 : c2 = Char.ofNat 13 => h (hc2 ▸ hl2))]
    · rfl
  · rename_i hl
    rw [List.getLast?_concat] at hl
    exact absurd hl (by simp)

/-- Step of `splitInclNl` on a newline: close the piece. -/
theorem splitInclNl_cons_nl (acc : List Char) (cs : List Char) :
    splitInclNl acc (Char.ofNat 10 :: cs) =
      (acc.reverse ++ [Char.ofNat 10]) :: splitInclNl [] cs := by
  show (if Char.ofNat 10 = Char.ofNat 10
      then (acc.reverse ++ [Char.ofNat 10]) :: splitInclNl [] cs
      else splitInclNl (Char.ofNat 10 :: acc) cs) = _
  rw [if_pos rfl]

/-- Step of `splitInclNl` on a non-newline: extend the piece. -/
theorem splitInclNl_cons (acc : List Char) (c : Char) (cs : List Char)
    (hc : c ≠ Char.ofNat 10) :
    splitInclNl acc (c :: cs) = splitInclNl (c :: acc) cs := by
  show (if c = Char.ofNat 10 then (acc.reverse ++ [c]) :: splitInclNl [] cs
      else splitInclNl (c :: acc) cs) = _
  rw [if_neg hc]

/-- End of input with a nonempty pending piece: emit it. -/
theorem splitInclNl_nil_acc (acc : List Char) (h : acc ≠ []) :
    splitInclNl acc [] = [acc.reverse] := by
  show (if acc.isEmpty then [] else [acc.reverse]) = _
  rw [if_neg (by simpa using h)]

/-- Splitting after appending a single final newline yields, after the
per-piece stripping, the same pieces as without it, provided the original
character list is nonempty and ends in neither a newline nor a carriage
return. -/
theorem splitInclNl_append_nl (cs : List Char) :
    ∀ acc, cs ≠ [] → cs.getLast? ≠ some (Char.ofNat 10) →
    cs.getLast? ≠ some (Char.ofNat 13) →
    (splitInclNl acc (cs ++ [Char.ofNat 10])).map stripNl =
      (splitInclNl acc cs).map stripNl := by
  induction cs with
  | nil => intro acc h; exact absurd rfl h
  | cons c cs ih =>
    intro acc _ hn hr
    cases cs with
    | nil =>
      have hcn : c ≠ Char.ofNat 10 := fun h => hn (by rw [List.getLast?_singleton, h])
      have hcr : c ≠ Char.ofNat 13 := fun h => hr (by rw [List.getLast?_singleton, h])
      show (splitInclNl acc (c :: [Char.ofNat 10])).map stripNl =
        (splitInclNl acc [c]).map stripNl
      rw [splitInclNl_cons acc c [Char.ofNat 10] hcn, splitInclNl_cons_nl,
        splitInclNl_cons acc c [] hcn, splitInclNl_nil_acc (c :: acc) (by simp)]
      show (((c :: acc).reverse ++ [Char.ofNat 10]) :: splitInclNl [] []).map stripNl = _
      rw [show splitInclNl ([] : List Char) [] = [] from rfl]
      rw [List.map_singleton, List.map_cons, List.map_nil]
      rw [stripNl_append_nl ((c :: acc).reverse)
        (by rw [List.getLast?_reverse]; intro h; exact hcr (by injection h)),
        stripNl_no_newline ((c :: acc).reverse)
        (by rw [List.getLast?_reverse]; intro h; exact hcn (by injection h))]
    | cons c2 cs2 =>
      have hn2 : (c2 :: cs2).getLast? ≠ some (Char.ofNat 10) := by
        rwa [List.getLast?_cons_cons] at hn
      have hr2 : (c2 :: cs2).getLast? ≠ some (Char.ofNat 13) := by
        rwa [List.getLast?_cons_cons] at hr
      by_cases hc : c = Char.ofNat 10
      · subst hc
        show (splitInclNl acc (Char.ofNat 10 :: ((c2 :: cs2) ++ [Char.ofNat 10]))).map stripNl =
          (splitInclNl acc (Char.ofNat 10 :: (c2 :: cs2))).map stripNl
        rw [splitInclNl_cons_nl, splitInclNl_cons_nl, List.map_cons, List.map_cons,
          ih [] (by simp) hn2 hr2]
      · show (splitInclNl acc (c :: ((c2 :: cs2) ++ [Char.ofNat 10]))).map stripNl =
          (splitInclNl acc (c :: (c2 :: cs2))).map stripNl
        rw [splitInclNl_cons _ _ _ hc, splitInclNl_cons _ _ _ hc,
          ih (c :: acc) (by simp) hn2 hr2]

/-- Tokenization ignores one appended final newline on a nonempty content not
ending in a newline or carriage return. -/
theorem rustLines_append_newline (s : String) (hne : s.data ≠ [])
    (hn : s.data.getLast? ≠ some (Char.ofNat 10))
    (hr : s.data.getLast? ≠ some (Char.ofNat 13)) :
    rustLines (s ++ "\n") = rustLines s := by
  unfold rustLines
  have hdata : (s ++ "\n").data = s.data ++ [Char.ofNat 10] := by
    rw [String.data_append]
  rw [hdata]
  have h := splitInclNl_append_nl s.data [] hne hn hr
  calc (splitInclNl [] (s.data ++ [Char.ofNat 10])).map (fun l => String.mk (stripNl l))
      = ((splitInclNl [] (s.data ++ [Char.ofNat 10])).map stripNl).map String.mk := by
        rw [List.map_map]
        rfl
    _ = ((splitInclNl [] s.data).map stripNl).map String.mk := by rw [h]
    _ = (splitInclNl [] s.data).map (fun l => String.mk (stripNl l)) := by
        rw [List.map_map]
        rfl

/-- C10 counterexample: the claim quantifies over every content string not
ending in a newline; at `s = ""` the diff of `s` against `s ++ "\n"` is not
empty — it is one `Insert` record for the empty line — because `""` has no
lines while `"\n"` has one. -/
theorem trailing_newline_counterexample :
    create_diff_lines (myers_diff (rustLines "") (rustLines "\n"))
        (rustLines "") (rustLines "\n") [] =
      [⟨none, some 1, DiffOperation.Insert, some "", none⟩] := by
  decide

/-- C10 amended: for every nonempty content `s` ending in neither a newline
nor a carriage return, the tokenizer ignores a single appended final newline,
so diffing `s` against `s ++ "\n"` (whose recomputed digests the integrity
check accepts, the byte contents being different) yields an empty record
sequence. -/
theorem trailing_newline_diff_empty (s : String) (hne : s.data ≠ [])
    (hn : s.data.getLast? ≠ some (Char.ofNat 10))
    (hr : s.data.getLast? ≠ some (Char.ofNat 13)) :
    rustLines (s ++ "\n") = rustLines s ∧
    create_diff_lines (myers_diff (rustLines s) (rustLines (s ++ "\n")))
      (rustLines s) (rustLines (s ++ "\n")) [] = [] := by
  have h := rustLines_append_newline s hne hn hr
  refine ⟨h, ?_⟩
  rw [h, myers_self]
  refine create_diff_lines_all_keep _ ?_ _ _ _
  intro e he
  unfold keepEdits at he
  obtain ⟨i, _, rfl⟩ := List.mem_map.mp he
  rfl

/-- Witness at `s = "a"`: the trailing-newline pair tokenizes equally and
diffs to no records. -/
theorem trailing_newline_diff_empty_witness :
    rustLines ("a" ++ "\n") = rustLines "a" ∧
    create_diff_lines (myers_diff (rustLines "a") (rustLines ("a" ++ "\n")))
      (rustLines "a") (rustLines ("a" ++ "\n")) [] = [] :=
  trailing_newline_diff_empty "a" (by decide) (by decide) (by decide)

/-- Membership in the level-`d` diagonal list is the bound-and-parity
condition. -/
theorem kList_mem (d : Nat) (k : Int) :
    k ∈ kList d ↔ k.natAbs ≤ d ∧ sameParity d k := by
  unfold kList sameParity
  simp only [List.mem_map, List.mem_range]
  constructor
  · rintro ⟨i, hi, rfl⟩
    omega
  · rintro ⟨h1, h2⟩
    exact ⟨((k + d) / 2).toNat, by omega, by omega⟩

/-- Length of the diagonal list. -/
theorem kList_length (d : Nat) : (kList d).length = d + 1 := by
  unfold kList
  simp

/-- The `i`-th processed diagonal of level `d`. -/
theorem kList_getElem (d i : Nat) (h : i < (kList d).length) :
    (kList d)[i] = -(d : Int) + 2 * i := by
  unfold kList
  simp

/-- The two diagonal-selection tests are the same function. -/
theorem backTakesInsert_eq_fwd : @backTakesInsert = @fwdTakesInsert := rfl

/-- The selection test only reads the two neighbouring diagonals. -/
theorem fwdTakesInsert_congr (v w : Int → Int) (d k : Int)
    (h1 : v (k - 1) = w (k - 1)) (h2 : v (k + 1) = w (k + 1)) :
    fwdTakesInsert v d k = fwdTakesInsert w d k := by
  unfold fwdTakesInsert
  rw [h1, h2]

/-- The snake never decreases the first coordinate. -/
theorem snakeAux_ge (a b : List α) :
    ∀ (fuel : Nat) (x y : Int), x ≤ (snakeAux a b fuel x y).1 := by
  intro fuel
  induction fuel with
  | zero => intro x y; exact le_refl x
  | succ fuel ih =>
    intro x y
    simp only [snakeAux]
    split
    · exact le_trans (by omega) (ih (x + 1) (y + 1))
    · exact le_refl x

/-- The snake stays on its diagonal. -/
theorem snakeAux_diag (a b : List α) :
    ∀ (fuel : Nat) (x y : Int), (snakeAux a b fuel x y).2 = (snakeAux a b fuel x y).1 - (x - y) := by
  intro fuel
  induction fuel with
  | zero => intro x y; simp [snakeAux]
  | succ fuel ih =>
    intro x y
    simp only [snakeAux]
    split
    · rw [ih (x + 1) (y + 1)]
      ring_nf
    · simp

/-- With fuel exceeding the remaining room, the snake result admits no
further diagonal step. -/
theorem snakeAux_slid (a b : List α) :
    ∀ (fuel : Nat) (x y : Int), a.length - x.toNat < fuel →
    ¬(0 ≤ (snakeAux a b fuel x y).1 ∧ 0 ≤ (snakeAux a b fuel x y).2 ∧
      (snakeAux a b fuel x y).1.toNat < a.length ∧ (snakeAux a b fuel x y).2.toNat < b.length ∧
      a.get? (snakeAux a b fuel x y).1.toNat = b.get? (snakeAux a b fuel x y).2.toNat) := by
  intro fuel
  induction fuel with
  | zero => intro x y h; omega
  | succ fuel ih =>
    intro x y h
    simp only [snakeAux]
    split
    · rename_i hg
      exact ih (x + 1) (y + 1) (by omega)
    · rename_i hg
      exact hg

/-- Every position passed over by the snake is an in-bounds match. -/
theorem snakeAux_run (a b : List α) :
    ∀ (fuel : Nat) (x y z : Int), x ≤ z → z < (snakeAux a b fuel x y).1 →
    0 ≤ z ∧ 0 ≤ y + (z - x) ∧ z.toNat < a.length ∧ (y + (z - x)).toNat < b.length ∧
      a.get? z.toNat = b.get? (y + (z - x)).toNat := by
  intro fuel
  induction fuel with
  | zero =>
    intro x y z h1 h2
    simp only [snakeAux] at h2
    omega
  | succ fuel ih =>
    intro x y z h1 h2
    simp only [snakeAux] at h2
    by_cases hg : 0 ≤ x ∧ 0 ≤ y ∧ x.toNat < a.length ∧ y.toNat < b.length ∧
        a.get? x.toNat = b.get? y.toNat
    · rw [if_pos hg] at h2
      by_cases hz : z = x
      · subst hz
        refine ⟨hg.1, by omega, hg.2.2.1, ?_, ?_⟩
        · rw [show y + (z - z) = y by ring]
          exact hg.2.2.2.1
        · rw [show y + (z - z) = y by ring]
          exact hg.2.2.2.2
      · have := ih (x + 1) (y + 1) z (by omega) h2
        rw [show y + 1 + (z - (x + 1)) = y + (z - x) by ring] at this
        exact this
    · rw [if_neg hg] at h2
      omega

/-- The snake preserves reachability. -/
theorem snakeAux_reach (a b : List α) (d : Nat) :
    ∀ (fuel : Nat) (x y : Int), 0 ≤ x → 0 ≤ y → Reach a b d x.toNat y.toNat →
    Reach a b d (snakeAux a b fuel x y).1.toNat (snakeAux a b fuel x y).2.toNat := by
  intro fuel
  induction fuel with
  | zero => intro x y _ _ h; exact h
  | succ fuel ih =>
    intro x y hx hy h
    simp only [snakeAux]
    split
    · rename_i hg
      have hstep : Reach a b d (x.toNat + 1) (y.toNat + 1) :=
        Reach.diag h hg.2.2.1 hg.2.2.2.1 hg.2.2.2.2
      have h1 : (x + 1).toNat = x.toNat + 1 := by omega
      have h2 : (y + 1).toNat = y.toNat + 1 := by omega
      exact ih (x + 1) (y + 1) (by omega) (by omega) (by rw [h1, h2]; exact hstep)
    · exact h

/-- The snake keeps both coordinates within the grid. -/
theorem snakeAux_le_bounds (a b : List α) :
    ∀ (fuel : Nat) (x y : Int), x ≤ a.length → y ≤ b.length →
    (snakeAux a b fuel x y).1 ≤ a.length ∧ (snakeAux a b fuel x y).2 ≤ b.length := by
  intro fuel
  induction fuel with
  | zero => intro x y h1 h2; exact ⟨h1, h2⟩
  | succ fuel ih =>
    intro x y h1 h2
    simp only [snakeAux]
    split
    · rename_i hg
      exact ih (x + 1) (y + 1) (by omega) (by omega)
    · exact ⟨h1, h2⟩

/-- A start already outside the grid is a snake fixpoint. -/
theorem snakeAux_stuck (a b : List α) (fuel : Nat) (x y : Int)
    (h : a.length ≤ x.toNat ∨ b.length ≤ y.toNat) :
    snakeAux a b fuel x y = (x, y) := by
  cases fuel with
  | zero => rfl
  | succ fuel =>
    simp only [snakeAux]
    rw [if_neg (by omega)]

/-- The level equation of the stored reach function. -/
theorem mV_succ (a b : List α) (d : Nat) (k : Int) :
    mV a b (d + 1) k = (snakeExt a b (x0V a b d k) (x0V a b d k - k)).1 := rfl

/-- Stored reaches are nonnegative. -/
theorem mV_nonneg (a b : List α) : ∀ (d : Nat) (k : Int), 0 ≤ mV a b d k := by
  intro d
  induction d with
  | zero =>
    intro k
    exact le_trans (le_refl 0) (snakeAux_ge a b (a.length + 1) 0 (0 - k))
  | succ d ih =>
    intro k
    rw [mV_succ]
    refine le_trans ?_ (snakeAux_ge a b (a.length + 1) (x0V a b d k) (x0V a b d k - k))
    unfold x0V mW
    split
    · split
      · exact ih (k + 1)
      · exact le_refl 0
    · split
      · have := ih (k - 1); omega
      · omega

/-- Reachability keeps both coordinates inside the grid and the diagonal
within the level. -/
theorem reach_bounds {a b : List α} {d x y : Nat} (h : Reach a b d x y) :
    x ≤ a.length ∧ y ≤ b.length ∧ (x : Int) - y ≤ d ∧ (y : Int) - x ≤ d := by
  induction h with
  | start => simp
  | del _ hx ih => exact ⟨hx, ih.2.1, by omega, by omega⟩
  | ins _ hy ih => exact ⟨ih.1, hy, by omega, by omega⟩
  | diag _ hx hy _ ih => exact ⟨hx, hy, by omega, by omega⟩

/-- The level of a reachable point agrees with its diagonal modulo 2. -/
theorem reach_parity {a b : List α} {d x y : Nat} (h : Reach a b d x y) :
    ((x : Int) - y - d) % 2 = 0 := by
  induction h with
  | start => simp
  | del _ _ ih => omega
  | ins _ _ ih => omega
  | diag _ _ _ _ ih => omega

/-- Every prefix corner `(x, 0)` is reachable in `x` steps. -/
theorem reach_dels (a b : List α) : ∀ x, x ≤ a.length → Reach a b x x 0 := by
  intro x
  induction x with
  | zero => intro _; exact Reach.start
  | succ x ih => intro h; exact Reach.del (ih (by omega)) (by omega)

/-- Insertions extend reachability downward. -/
theorem reach_inss {a b : List α} {d x y : Nat} (h : Reach a b d x y) :
    ∀ t, y + t ≤ b.length → Reach a b (d + t) x (y + t) := by
  intro t
  induction t with
  | zero => intro _; exact h
  | succ t ih =>
    intro ht
    show Reach a b (d + t + 1) x (y + t + 1)
    exact Reach.ins (ih (by omega)) (show y + t < b.length by omega)

/-- The far corner is reachable in `n + m` steps. -/
theorem reach_full (a b : List α) : Reach a b (a.length + b.length) a.length b.length := by
  have := reach_inss (reach_dels a b a.length (le_refl _)) b.length (by omega)
  simpa using this

/-- Inside the written region the read function is the stored value. -/
theorem mW_eq_mV (a b : List α) (d : Nat) (j : Int) (h : j.natAbs ≤ d) :
    mW a b d j = mV a b d j := by
  unfold mW
  rw [if_pos h]

/-- The extended snake stays on its diagonal. -/
theorem snakeExt_diag (a b : List α) (x k : Int) :
    (snakeExt a b x (x - k)).2 = (snakeExt a b x (x - k)).1 - k := by
  unfold snakeExt
  rw [snakeAux_diag]
  ring_nf

/-- The extended snake admits no further diagonal step. -/
theorem snakeExt_slid (a b : List α) (x y : Int) :
    ¬(0 ≤ (snakeExt a b x y).1 ∧ 0 ≤ (snakeExt a b x y).2 ∧
      (snakeExt a b x y).1.toNat < a.length ∧ (snakeExt a b x y).2.toNat < b.length ∧
      a.get? (snakeExt a b x y).1.toNat = b.get? (snakeExt a b x y).2.toNat) := by
  unfold snakeExt
  exact snakeAux_slid a b (a.length + 1) x y (by omega)

/-- The stored reach of any cell admits no further diagonal step. -/
theorem mV_slid (a b : List α) (d : Nat) (k : Int) :
    ¬(0 ≤ mV a b d k ∧ 0 ≤ mV a b d k - k ∧
      (mV a b d k).toNat < a.length ∧ (mV a b d k - k).toNat < b.length ∧
      a.get? (mV a b d k).toNat = b.get? ((mV a b d k) - k).toNat) := by
  cases d with
  | zero =>
    have hd := snakeExt_diag a b 0 k
    have hs := snakeExt_slid a b 0 (0 - k)
    rw [hd] at hs
    exact hs
  | succ d =>
    have hd := snakeExt_diag a b (x0V a b d k) k
    have hs := snakeExt_slid a b (x0V a b d k) (x0V a b d k - k)
    rw [hd] at hs
    rw [mV_succ]
    exact hs

/-- The snake extension never decreases the first coordinate. -/
theorem snakeExt_ge (a b : List α) (x y : Int) : x ≤ (snakeExt a b x y).1 :=
  snakeAux_ge a b (a.length + 1) x y

/-- Truth condition of the diagonal-selection test. -/
theorem fwdTakesInsert_iff (v : Int → Int) (D K : Int) :
    fwdTakesInsert v D K = true ↔ (K = -D ∨ (K ≠ D ∧ v (K - 1) < v (K + 1))) := by
  unfold fwdTakesInsert
  exact decide_eq_true_iff

/-- Reading of a false diagonal-selection test. -/
theorem fwdTakesInsert_false {v : Int → Int} {D K : Int}
    (h : fwdTakesInsert v D K = false) :
    K ≠ -D ∧ (K = D ∨ v (K + 1) ≤ v (K - 1)) := by
  have h2 := (fwdTakesInsert_iff v D K).not.mp (by simp [h])
  push_neg at h2
  refine ⟨h2.1, ?_⟩
  by_cases hKD : K = D
  · exact Or.inl hKD
  · exact Or.inr (h2.2 hKD)

/-- Domination: the stored reach on a diagonal is at least every grid point
reachable at that level on that diagonal. -/
theorem mV_dominates {a b : List α} {d x y : Nat} (h : Reach a b d x y) :
    (x : Int) ≤ mV a b d ((x : Int) - y) := by
  induction h with
  | start => simpa using mV_nonneg a b 0 0
  | @del d x y h hx ih =>
    have hb := reach_bounds h
    have hk : ((x + 1 : Nat) : Int) - (y : Int) = ((x : Int) - y) + 1 := by push_cast; ring
    rw [hk]
    have habs : ((x : Int) - y).natAbs ≤ d := by omega
    rw [mV_succ]
    refine le_trans ?_ (snakeExt_ge a b _ _)
    unfold x0V
    cases hT : fwdTakesInsert (mW a b d) ((d + 1 : Nat) : Int) (((x : Int) - y) + 1) with
    | false =>
      rw [if_neg (by simp [hT])]
      rw [show ((x : Int) - y) + 1 - 1 = (x : Int) - y by ring, mW_eq_mV a b d _ habs]
      push_cast
      omega
    | true =>
      rw [if_pos (by simp [hT])]
      rcases (fwdTakesInsert_iff _ _ _).mp hT with h1 | ⟨h1, h2⟩
      · exfalso
        have : ((x : Int) - y) + 1 = -((d + 1 : Nat) : Int) := h1
        push_cast at this
        omega
      · rw [show ((x : Int) - y) + 1 - 1 = (x : Int) - y by ring] at h2
        have hW := mW_eq_mV a b d _ habs
        push_cast
        omega
  | @ins d x y h hy ih =>
    have hb := reach_bounds h
    have hk : ((x : Nat) : Int) - ((y + 1 : Nat) : Int) = ((x : Int) - y) - 1 := by
      push_cast; ring
    rw [hk]
    have habs : ((x : Int) - y).natAbs ≤ d := by omega
    rw [mV_succ]
    refine le_trans ?_ (snakeExt_ge a b _ _)
    unfold x0V
    cases hT : fwdTakesInsert (mW a b d) ((d + 1 : Nat) : Int) (((x : Int) - y) - 1) with
    | true =>
      rw [if_pos (by simp [hT])]
      rw [show ((x : Int) - y) - 1 + 1 = (x : Int) - y by ring, mW_eq_mV a b d _ habs]
      exact ih
    | false =>
      rw [if_neg (by simp [hT])]
      obtain ⟨h1, h2⟩ := fwdTakesInsert_false hT
      have h3 : ((x : Int) - y) - 1 ≠ ((d + 1 : Nat) : Int) := by push_cast; omega
      have h4 : mW a b d (((x : Int) - y) - 1 + 1) ≤ mW a b d (((x : Int) - y) - 1 - 1) := by
        rcases h2 with h2 | h2
        · exact absurd h2 h3
        · exact h2
      rw [show ((x : Int) - y) - 1 + 1 = (x : Int) - y by ring] at h4
      rw [mW_eq_mV a b d _ habs] at h4
      omega
  | @diag d x y h hx hy heq ih =>
    have hk : ((x + 1 : Nat) : Int) - ((y + 1 : Nat) : Int) = (x : Int) - y := by
      push_cast; ring
    rw [hk]
    by_contra hlt
    push_neg at hlt
    have hx2 : mV a b d ((x : Int) - y) = (x : Int) := by push_cast at hlt; omega
    refine mV_slid a b d ((x : Int) - y)
      ⟨by omega, by omega, by omega, by omega, ?_⟩
    rw [show (mV a b d ((x : Int) - y)).toNat = x by omega,
        show (mV a b d ((x : Int) - y) - ((x : Int) - y)).toNat = y by omega]
    exact heq

/-- Snake bounds, restated on the extension. -/
theorem snakeExt_le_bounds (a b : List α) (x y : Int)
    (h1 : x ≤ a.length) (h2 : y ≤ b.length) :
    (snakeExt a b x y).1 ≤ a.length ∧ (snakeExt a b x y).2 ≤ b.length :=
  snakeAux_le_bounds a b (a.length + 1) x y h1 h2

/-- Snake reach preservation, restated on the extension. -/
theorem snakeExt_reach (a b : List α) (d : Nat) (x y : Int)
    (hx : 0 ≤ x) (hy : 0 ≤ y) (h : Reach a b d x.toNat y.toNat) :
    Reach a b d (snakeExt a b x y).1.toNat (snakeExt a b x y).2.toNat :=
  snakeAux_reach a b d (a.length + 1) x y hx hy h

/-- The greedy snake preserves the three-way classification of a cell. -/
theorem snakeExt_triPt {a b : List α} {D : Nat} {k X : Int} (h : TriPt a b D k X) :
    TriPt a b D k (snakeExt a b X (X - k)).1 := by
  rcases h with ⟨h1, h2, h3, h4, h5⟩ | hB | hC
  · left
    have hge := snakeExt_ge a b X (X - k)
    have hdg := snakeExt_diag a b X k
    have hlb := snakeExt_le_bounds a b X (X - k) h2 h4
    have hrc := snakeExt_reach a b D X (X - k) h1 h3 h5
    rw [hdg] at hrc
    exact ⟨by omega, hlb.1, by omega, by omega, hrc⟩
  · have hst : snakeExt a b X (X - k) = (X, X - k) :=
      snakeAux_stuck a b (a.length + 1) X (X - k) (Or.inl (by omega))
    rw [hst]
    exact Or.inr (Or.inl hB)
  · have hst : snakeExt a b X (X - k) = (X, X - k) :=
      snakeAux_stuck a b (a.length + 1) X (X - k) (Or.inr (by omega))
    rw [hst]
    exact Or.inr (Or.inr hC)

/-- Classification of the insertion-neighbour pre-snake value one level up. -/
theorem triPt_insStep {a b : List α} {d : Nat} {k : Int}
    (hT : TriPt a b d (k + 1) (mV a b d (k + 1)))
    (hNP : ¬Passes a b d (k + 1)) :
    TriPt a b (d + 1) k (mV a b d (k + 1)) := by
  set X := mV a b d (k + 1) with hX
  rcases hT with ⟨h1, h2, h3, h4, h5⟩ | ⟨h1, h2, h3, h4, h5, h6⟩ | ⟨h1, h2, h3, h4, h5, h6⟩
  · by_cases hY : X - (k + 1) < b.length
    · left
      refine ⟨h1, h2, by omega, by omega, ?_⟩
      have hstep := Reach.ins h5 (show (X - (k + 1)).toNat < b.length by omega)
      rw [show (X - k).toNat = (X - (k + 1)).toNat + 1 by omega]
      exact hstep
    · right; right
      refine ⟨by omega, h1, h2, by omega, by omega, ?_⟩
      rw [show (d + 1) - (X - k - b.length).toNat = d by omega,
          show b.length = (X - (k + 1)).toNat by omega]
      exact h5
  · by_cases hY : X - (k + 1) < b.length
    · right; left
      refine ⟨h1, by omega, by omega, h4, by omega, ?_⟩
      rw [show (d + 1) - (X - a.length).toNat = (d - (X - a.length).toNat) + 1 by omega]
      have hstep := Reach.ins h6 (show (X - (k + 1)).toNat < b.length by omega)
      rw [show (X - k).toNat = (X - (k + 1)).toNat + 1 by omega]
      exact hstep
    · exact absurd (⟨Or.inr (by omega), Or.inr (by omega)⟩ :
        (X < 0 ∨ a.length ≤ X.toNat) ∧ (X - (k + 1) < 0 ∨ b.length ≤ (X - (k + 1)).toNat)) hNP
  · right; right
    refine ⟨by omega, h2, h3, by omega, by omega, ?_⟩
    rw [show (d + 1) - (X - k - b.length).toNat = d - (X - (k + 1) - b.length).toNat by omega]
    exact h6

/-- Classification of the deletion-neighbour pre-snake value one level up. -/
theorem triPt_delStep {a b : List α} {d : Nat} {k : Int}
    (hT : TriPt a b d (k - 1) (mV a b d (k - 1)))
    (hNP : ¬Passes a b d (k - 1)) :
    TriPt a b (d + 1) k (mV a b d (k - 1) + 1) := by
  set X := mV a b d (k - 1) with hX
  rcases hT with ⟨h1, h2, h3, h4, h5⟩ | ⟨h1, h2, h3, h4, h5, h6⟩ | ⟨h1, h2, h3, h4, h5, h6⟩
  · by_cases hx : X < a.length
    · left
      refine ⟨by omega, by omega, by omega, by omega, ?_⟩
      have hstep := Reach.del h5 (show X.toNat < a.length by omega)
      rw [show (X + 1).toNat = X.toNat + 1 by omega,
          show (X + 1 - k).toNat = (X - (k - 1)).toNat by omega]
      exact hstep
    · right; left
      refine ⟨by omega, by omega, by omega, by omega, by omega, ?_⟩
      rw [show (d + 1) - (X + 1 - a.length).toNat = d by omega,
          show (X + 1 - k).toNat = (X - (k - 1)).toNat by omega,
          show a.length = X.toNat by omega]
      exact h5
  · right; left
    refine ⟨by omega, by omega, by omega, by omega, by omega, ?_⟩
    rw [show (d + 1) - (X + 1 - a.length).toNat = d - (X - a.length).toNat by omega,
        show (X + 1 - k).toNat = (X - (k - 1)).toNat by omega]
    exact h6
  · by_cases hx : X < a.length
    · right; right
      refine ⟨by omega, by omega, by omega, by omega, by omega, ?_⟩
      rw [show (d + 1) - (X + 1 - k - b.length).toNat =
          (d - (X - (k - 1) - b.length).toNat) + 1 by omega]
      have hstep := Reach.del h6 (show X.toNat < a.length by omega)
      rw [show (X + 1).toNat = X.toNat + 1 by omega]
      exact hstep
    · exact absurd (⟨Or.inr (by omega), Or.inr (by omega)⟩ :
        (X < 0 ∨ a.length ≤ X.toNat) ∧ (X - (k - 1) < 0 ∨ b.length ≤ (X - (k - 1)).toNat)) hNP

/-- Trichotomy: while no earlier level has passed the end test, every written
cell's stored value is classified by `TriPt`. -/
theorem tri (a b : List α) :
    ∀ d : Nat, NoPassBelow a b d → ∀ k : Int, k.natAbs ≤ d → sameParity d k →
      TriPt a b d k (mV a b d k) := by
  intro d
  induction d with
  | zero =>
    intro _ k hk _
    have hk0 : k = 0 := by omega
    subst hk0
    have h0 : TriPt a b 0 0 0 :=
      Or.inl ⟨le_refl 0, by omega, by omega, by omega, Reach.start⟩
    exact snakeExt_triPt h0
  | succ d ih =>
    intro hNP k hk1 hk2
    have hk2' : (k - ((d + 1 : Nat) : Int)) % 2 = 0 := hk2
    have hNPd : NoPassBelow a b d := fun e he => hNP e (by omega)
    rw [mV_succ]
    apply snakeExt_triPt
    unfold x0V
    cases hT : fwdTakesInsert (mW a b d) ((d + 1 : Nat) : Int) k with
    | true =>
      rw [if_pos (by simp [hT])]
      have hj : (k + 1).natAbs ≤ d := by
        rcases (fwdTakesInsert_iff _ _ _).mp hT with h1 | ⟨h1, _⟩
        · have h1' : k = -((d + 1 : Nat) : Int) := h1
          push_cast at h1'
          omega
        · have h1' : k ≠ ((d + 1 : Nat) : Int) := h1
          push_cast at h1'
          omega
      have hpar : sameParity d (k + 1) :=
        show (k + 1 - (d : Int)) % 2 = 0 by push_cast at hk2'; omega
      rw [mW_eq_mV a b d _ hj]
      exact triPt_insStep (ih hNPd (k + 1) hj hpar)
        (hNP d (by omega) (k + 1) ((kList_mem d (k + 1)).mpr ⟨hj, hpar⟩))
    | false =>
      rw [if_neg (by simp [hT])]
      obtain ⟨h1, _⟩ := fwdTakesInsert_false hT
      have hj : (k - 1).natAbs ≤ d := by
        have h1' : k ≠ -((d + 1 : Nat) : Int) := h1
        push_cast at h1'
        omega
      have hpar : sameParity d (k - 1) :=
        show (k - 1 - (d : Int)) % 2 = 0 by push_cast at hk2'; omega
      rw [mW_eq_mV a b d _ hj]
      exact triPt_delStep (ih hNPd (k - 1) hj hpar)
        (hNP d (by omega) (k - 1) ((kList_mem d (k - 1)).mpr ⟨hj, hpar⟩))

/-- Reaching the far corner makes its diagonal's cell pass the end test. -/
theorem pass_of_reach {a b : List α} {e : Nat} (h : Reach a b e a.length b.length) :
    ((a.length : Int) - (b.length : Int)) ∈ kList e ∧
      Passes a b e ((a.length : Int) - (b.length : Int)) := by
  have hb := reach_bounds h
  have hp := reach_parity h
  have hd := mV_dominates h
  refine ⟨(kList_mem e _).mpr ⟨by omega,
    show (((a.length : Int) - (b.length : Int)) - (e : Int)) % 2 = 0 by omega⟩,
    Or.inr (by omega), Or.inr (by omega)⟩

/-- The solver's stopping level exists and is at most `n + m`. -/
theorem firstPass_exists (a b : List α) :
    ∃ e, e ≤ a.length + b.length ∧ FirstPass a b e := by
  classical
  obtain ⟨hmem, hpass⟩ := pass_of_reach (reach_full a b)
  have hP : ∃ e, ∃ k ∈ kList e, Passes a b e k := ⟨a.length + b.length, _, hmem, hpass⟩
  refine ⟨Nat.find hP, Nat.find_le ⟨_, hmem, hpass⟩, Nat.find_spec hP, ?_⟩
  intro e' he' k hk hp
  exact Nat.find_min hP he' ⟨k, hk, hp⟩

/-- At the stopping level the far corner is reached, no earlier level reaches
it, and the stored value on the corner diagonal is exactly `n`. -/
theorem firstPass_corner {a b : List α} {e : Nat} (h : FirstPass a b e) :
    Reach a b e a.length b.length ∧
      (∀ e' < e, ¬Reach a b e' a.length b.length) ∧
      mV a b e ((a.length : Int) - (b.length : Int)) = a.length := by
  obtain ⟨⟨k, hk, hp⟩, hNP⟩ := h
  obtain ⟨hk1, hk2⟩ := (kList_mem e k).mp hk
  have hk2' : (k - (e : Int)) % 2 = 0 := hk2
  have hno : ∀ e' < e, ¬Reach a b e' a.length b.length := by
    intro e' he' hr
    obtain ⟨hm, hpass⟩ := pass_of_reach hr
    exact hNP e' he' _ hm hpass
  have hre : Reach a b e a.length b.length := by
    obtain ⟨hp1, hp2⟩ := hp
    rcases tri a b e hNP k hk1 hk2 with ⟨h1, h2, h3, h4, h5⟩ | ⟨h1, h2, h3, h4, h5, h6⟩ |
        ⟨h1, h2, h3, h4, h5, h6⟩
    · rw [show a.length = (mV a b e k).toNat by omega,
          show b.length = (mV a b e k - k).toNat by omega]
      exact h5
    · exfalso
      refine hno (e - (mV a b e k - a.length).toNat) (by omega) ?_
      rw [show b.length = (mV a b e k - k).toNat by omega]
      exact h6
    · exfalso
      refine hno (e - (mV a b e k - k - b.length).toNat) (by omega) ?_
      rw [show a.length = (mV a b e k).toNat by omega]
      exact h6
  refine ⟨hre, hno, ?_⟩
  have hb := reach_bounds hre
  have hpar := reach_parity hre
  have hdom := mV_dominates hre
  rcases tri a b e hNP ((a.length : Int) - (b.length : Int)) (by omega)
      (show (((a.length : Int) - (b.length : Int)) - (e : Int)) % 2 = 0 by omega) with
    ⟨h1, h2, h3, h4, h5⟩ | ⟨h1, h2, h3, h4, h5, h6⟩ | ⟨h1, h2, h3, h4, h5, h6⟩
  · omega
  · omega
  · omega

/-- The array at the top of a positive level is the previous level's array
at its end. -/
theorem vBefore_succ (a b : List α) (d : Nat) :
    vBefore a b (d + 1) = vAfter a b d := rfl

/-- At the leftmost cursor nothing of the level has been written yet. -/
theorem midV_bot (a b : List α) (d : Nat) :
    midV a b d (-(d : Int)) = vBefore a b d := by
  funext j
  unfold midV
  rw [if_neg ?ne]
  case ne =>
    rintro ⟨h1, _, h3⟩
    omega

/-- Past the rightmost cursor the whole level has been written. -/
theorem midV_top (a b : List α) (d : Nat) :
    midV a b d ((d : Int) + 2) = vAfter a b d := by
  funext j
  unfold midV
  by_cases hc : j.natAbs ≤ d ∧ sameParity d j
  · rw [if_pos ⟨hc.1, hc.2, by omega⟩]
    unfold vAfter
    rw [if_pos hc]
  · rw [if_neg (fun hx => hc ⟨hx.1, hx.2.1⟩)]
    cases d with
    | zero =>
      unfold vBefore vAfter
      rw [if_pos rfl, if_neg hc, if_neg (fun hx => absurd hx.1 (by omega))]
    | succ d =>
      rw [vBefore_succ]
      unfold vAfter
      rw [if_neg hc]
      simp only [Nat.add_sub_cancel]
      by_cases hp : sameParity d j
      · by_cases hb : j.natAbs ≤ d
        · rw [if_pos ⟨hb, hp⟩, if_pos ⟨by omega, by omega, hp⟩]
        · rw [if_neg (fun hx => hb hx.1), if_neg (fun hx => absurd hx.2.1 (by omega)),
              if_neg (fun hx => absurd hx.2.1 (by omega))]
      · have hp1 : ¬((j - (d : Int)) % 2 = 0) := fun h => hp h
        have habs : ¬(j.natAbs ≤ d + 1) := by
          intro hle
          exact hc ⟨hle, show (j - ((d + 1 : Nat) : Int)) % 2 = 0 by push_cast; omega⟩
        rw [if_neg (fun hx => hp hx.2), if_neg (fun hx => absurd hx.2.1 (by omega)),
            if_neg (fun hx => hp hx.2.2)]

/-- Mid-level reads at the previous level's parity see the previous level's
read function. -/
theorem midV_neighbor (a b : List α) (d : Nat) (c : Int) {j : Int}
    (hp : sameParity d j) :
    midV a b (d + 1) c j = mW a b d j := by
  have hp' : (j - (d : Int)) % 2 = 0 := hp
  unfold midV
  rw [if_neg ?ne]
  case ne =>
    rintro ⟨_, h2, _⟩
    have h2' : (j - ((d + 1 : Nat) : Int)) % 2 = 0 := h2
    push_cast at h2'
    omega
  rw [vBefore_succ]
  unfold vAfter mW
  by_cases hb : j.natAbs ≤ d
  · rw [if_pos ⟨hb, hp⟩, if_pos hb]
  · rw [if_neg (fun hx => hb hx.1), if_neg (fun hx => absurd hx.2.1 (by omega)),
        if_neg hb]

/-- Storing the cursor's value advances the cursor by two diagonals. -/
theorem midV_update (a b : List α) {d : Nat} {k : Int}
    (hk1 : k.natAbs ≤ d) (hk2 : sameParity d k) :
    (fun j => if j = k then mV a b d k else midV a b d k j) = midV a b d (k + 2) := by
  funext j
  by_cases hj : j = k
  · subst hj
    rw [if_pos rfl]
    unfold midV
    rw [if_pos ⟨hk1, hk2, by omega⟩]
  · rw [if_neg hj]
    unfold midV
    by_cases hc : j.natAbs ≤ d ∧ sameParity d j ∧ j < k
    · rw [if_pos hc, if_pos ⟨hc.1, hc.2.1, by omega⟩]
    · have hcc : ¬(j.natAbs ≤ d ∧ sameParity d j ∧ j < k + 2) := by
        rintro ⟨h1, h2, h3⟩
        apply hc
        refine ⟨h1, h2, ?_⟩
        have h2' : (j - (d : Int)) % 2 = 0 := h2
        have hk2' : (k - (d : Int)) % 2 = 0 := hk2
        omega
      rw [if_neg hc, if_neg hcc]

/-- At the cursor, the computed pre-snake value of a positive level is the
functional `x0V` of the previous level. -/
theorem midV_x0 (a b : List α) (d : Nat) {k : Int} (hk : sameParity (d + 1) k) :
    (if fwdTakesInsert (midV a b (d + 1) k) ((d + 1 : Nat) : Int) k
     then midV a b (d + 1) k (k + 1)
     else midV a b (d + 1) k (k - 1) + 1) = x0V a b d k := by
  have hk' : (k - ((d + 1 : Nat) : Int)) % 2 = 0 := hk
  have e1 : midV a b (d + 1) k (k + 1) = mW a b d (k + 1) :=
    midV_neighbor a b d k (show (k + 1 - (d : Int)) % 2 = 0 by push_cast at hk'; omega)
  have e2 : midV a b (d + 1) k (k - 1) = mW a b d (k - 1) :=
    midV_neighbor a b d k (show (k - 1 - (d : Int)) % 2 = 0 by push_cast at hk'; omega)
  rw [fwdTakesInsert_congr _ _ _ _ e2 e1, e1, e2]
  rfl

/-- The stored value is the snake from the pre-snake value, at every level. -/
theorem mV_eq_preX (a b : List α) (d : Nat) (k : Int) :
    mV a b d k = (snakeExt a b (preX a b d k) (preX a b d k - k)).1 := by
  cases d with
  | zero =>
    show (snakeExt a b 0 (0 - k)).1 = _
    rw [show (0 : Int) - k = 0 - k from rfl]
    rfl
  | succ d => rfl

/-- Unfolding of the inner loop on a cons cell, with the pre-snake value
named. -/
theorem innerLoop_cons_pre (a b : List α) (t : List (Int → Int)) (d : Nat)
    (v : Int → Int) (k : Int) (ks : List Int) (x : Int)
    (hx : (if fwdTakesInsert v (d : Int) k then v (k + 1) else v (k - 1) + 1) = x) :
    innerLoop a b t d v (k :: ks) =
      (if ((snakeExt a b x (x - k)).1 < 0 ∨ a.length ≤ (snakeExt a b x (x - k)).1.toNat) ∧
          ((snakeExt a b x (x - k)).2 < 0 ∨ b.length ≤ (snakeExt a b x (x - k)).2.toNat) then
        Sum.inr (backtrack t a b d)
      else innerLoop a b t d (fun j => if j = k then (snakeExt a b x (x - k)).1 else v j) ks) := by
  subst hx
  rfl

/-- One level of the inner loop: starting at cursor `i` with the cells left
of the cursor already written, the loop returns the backtrack result as soon
as a remaining cell passes the end test, else finishes the level. -/
theorem innerLoop_spec (a b : List α) (t : List (Int → Int)) (d : Nat) :
    ∀ r i, d + 1 - i = r → i ≤ d + 1 →
    innerLoop a b t d (midV a b d (-(d : Int) + 2 * (i : Int))) ((kList d).drop i) =
      (if ∃ k ∈ (kList d).drop i, Passes a b d k then Sum.inr (backtrack t a b d)
       else Sum.inl (midV a b d (-(d : Int) + 2 * ((d + 1 : Nat) : Int)))) := by
  intro r
  induction r with
  | zero =>
    intro i hr hi
    have hieq : i = d + 1 := by omega
    subst hieq
    rw [List.drop_eq_nil_of_le (le_of_eq (kList_length d))]
    rw [if_neg (by simp)]
    rfl
  | succ r ih =>
    intro i hr hi
    have hid : i < d + 1 := by omega
    have hlen : i < (kList d).length := by rw [kList_length]; exact hid
    have hdrop : (kList d).drop i =
        (-(d : Int) + 2 * (i : Int)) :: (kList d).drop (i + 1) := by
      rw [List.drop_eq_getElem_cons hlen, kList_getElem d i hlen]
    have hpark : sameParity d (-(d : Int) + 2 * (i : Int)) :=
      show ((-(d : Int) + 2 * (i : Int)) - (d : Int)) % 2 = 0 by omega
    have hx0 : (if fwdTakesInsert (midV a b d (-(d : Int) + 2 * (i : Int))) (d : Int)
          (-(d : Int) + 2 * (i : Int))
        then midV a b d (-(d : Int) + 2 * (i : Int)) (-(d : Int) + 2 * (i : Int) + 1)
        else midV a b d (-(d : Int) + 2 * (i : Int)) (-(d : Int) + 2 * (i : Int) - 1) + 1) =
        preX a b d (-(d : Int) + 2 * (i : Int)) := by
      cases d with
      | zero =>
        have hi0 : i = 0 := by omega
        subst hi0
        rfl
      | succ d' => exact midV_x0 a b d' hpark
    rw [hdrop, innerLoop_cons_pre a b t d _ _ _ _ hx0]
    have hp1 : (snakeExt a b (preX a b d (-(d : Int) + 2 * (i : Int)))
        (preX a b d (-(d : Int) + 2 * (i : Int)) - (-(d : Int) + 2 * (i : Int)))).1 =
        mV a b d (-(d : Int) + 2 * (i : Int)) :=
      (mV_eq_preX a b d _).symm
    have hp2 : (snakeExt a b (preX a b d (-(d : Int) + 2 * (i : Int)))
        (preX a b d (-(d : Int) + 2 * (i : Int)) - (-(d : Int) + 2 * (i : Int)))).2 =
        mV a b d (-(d : Int) + 2 * (i : Int)) - (-(d : Int) + 2 * (i : Int)) := by
      rw [snakeExt_diag, hp1]
    rw [hp1, hp2]
    by_cases hpass : (mV a b d (-(d : Int) + 2 * (i : Int)) < 0 ∨
        a.length ≤ (mV a b d (-(d : Int) + 2 * (i : Int))).toNat) ∧
        (mV a b d (-(d : Int) + 2 * (i : Int)) - (-(d : Int) + 2 * (i : Int)) < 0 ∨
        b.length ≤ (mV a b d (-(d : Int) + 2 * (i : Int)) - (-(d : Int) + 2 * (i : Int))).toNat)
    · rw [if_pos hpass]
      rw [if_pos (⟨-(d : Int) + 2 * (i : Int), List.mem_cons_self _ _, hpass⟩ :
        ∃ k ∈ (-(d : Int) + 2 * (i : Int)) :: (kList d).drop (i + 1), Passes a b d k)]
    · rw [if_neg hpass]
      rw [show (fun j => if j = (-(d : Int) + 2 * (i : Int)) then
            mV a b d (-(d : Int) + 2 * (i : Int))
          else midV a b d (-(d : Int) + 2 * (i : Int)) j) =
          midV a b d ((-(d : Int) + 2 * (i : Int)) + 2) from
        midV_update a b (by omega) hpark]
      rw [show (-(d : Int) + 2 * (i : Int)) + 2 = -(d : Int) + 2 * (((i + 1) : Nat) : Int) by
        push_cast; ring]
      rw [ih (i + 1) (by omega) (by omega)]
      by_cases h2 : ∃ k ∈ (kList d).drop (i + 1), Passes a b d k
      · obtain ⟨k2, hk2, hp2'⟩ := h2
        rw [if_pos ⟨k2, hk2, hp2'⟩, if_pos ⟨k2, List.mem_cons_of_mem _ hk2, hp2'⟩]
      · have hne : ¬∃ k ∈ (-(d : Int) + 2 * (i : Int)) :: (kList d).drop (i + 1),
            Passes a b d k := by
          rintro ⟨k2, hk2, hp2'⟩
          rcases List.mem_cons.mp hk2 with rfl | hk3
          · exact hpass hp2'
          · exact h2 ⟨k2, hk3, hp2'⟩
        rw [if_neg h2, if_neg hne]

/-- Unfolding of the outer loop on a positive iteration count. -/
theorem outerLoop_succ (a b : List α) (count : Nat) (v : Int → Int)
    (trace : List (Int → Int)) (d : Nat) :
    outerLoop a b (count + 1) v trace d =
      (match innerLoop a b (trace ++ [v]) d v (kList d) with
       | Sum.inr r => r
       | Sum.inl v2 => outerLoop a b count v2 (trace ++ [v]) (d + 1)) := rfl

/-- Running the outer loop from any level below the stopping level returns
the backtrack of the stopping level's trace. -/
theorem outerLoop_eq (a b : List α) {e : Nat} (he : FirstPass a b e) :
    ∀ count d, d ≤ e → e < d + count →
      outerLoop a b count (vBefore a b d) ((List.range d).map (vBefore a b)) d =
        backtrack (traceUpTo a b e) a b e := by
  intro count
  induction count with
  | zero => intro d h1 h2; omega
  | succ count ih =>
    intro d h1 h2
    rw [outerLoop_succ]
    have htr : (List.range d).map (vBefore a b) ++ [vBefore a b d] = traceUpTo a b d := by
      unfold traceUpTo
      rw [List.range_succ, List.map_append]
      rfl
    rw [htr]
    have hspec := innerLoop_spec a b (traceUpTo a b d) d (d + 1) 0 rfl (by omega)
    rw [List.drop_zero] at hspec
    rw [show (-(d : Int) + 2 * ((0 : Nat) : Int)) = -(d : Int) by push_cast; ring] at hspec
    rw [midV_bot] at hspec
    by_cases hde : d = e
    · subst hde
      obtain ⟨k0, hk0, hp0⟩ := he.1
      rw [if_pos ⟨k0, hk0, hp0⟩] at hspec
      rw [hspec]
    · have hlt : d < e := by omega
      have hnop : ¬∃ k ∈ kList d, Passes a b d k := by
        rintro ⟨k0, hk0, hp0⟩
        exact he.2 d hlt k0 hk0 hp0
      rw [if_neg hnop] at hspec
      rw [show (-(d : Int) + 2 * (((d + 1) : Nat) : Int)) = (d : Int) + 2 by
        push_cast; ring] at hspec
      rw [midV_top, ← vBefore_succ] at hspec
      rw [hspec]
      exact ih (d + 1) (by omega) (by omega)

/-- The solver returns the backtrack of the stopping level. -/
theorem myers_eq_backtrack (a b : List α) {e : Nat} (he : FirstPass a b e) :
    myers_diff a b = backtrack (traceUpTo a b e) a b e := by
  have hle : e ≤ a.length + b.length := by
    by_contra hgt
    push_neg at hgt
    obtain ⟨hmem, hpass⟩ := pass_of_reach (reach_full a b)
    exact he.2 _ hgt _ hmem hpass
  exact outerLoop_eq a b he (a.length + b.length + 1) 0 (by omega) (by omega)

/-- The end-of-level array read at the level's own parity is the read
function of that level. -/
theorem vAfter_eq_mW (a b : List α) (d : Nat) {j : Int} (hp : sameParity d j) :
    vAfter a b d j = mW a b d j := by
  unfold vAfter mW
  by_cases hb : j.natAbs ≤ d
  · rw [if_pos ⟨hb, hp⟩, if_pos hb]
  · rw [if_neg (fun hx => hb hx.1), if_neg (fun hx => absurd hx.2.1 (by omega)), if_neg hb]

/-- Indexing the trace at a level within range gives that level's array. -/
theorem traceUpTo_getD (a b : List α) (e td : Nat) (h : td ≤ e) (f : Int → Int) :
    (traceUpTo a b e).getD td f = vBefore a b td := by
  unfold traceUpTo
  rw [List.getD_eq_getElem?_getD, List.getElem?_map, List.getElem?_range (by omega)]
  rfl

/-- One step of the backward snake. -/
theorem backSnakeAux_succ (px py : Int) (fuel : Nat) (x y : Int) (ed : List Edit) :
    backSnakeAux px py (fuel + 1) x y ed =
      (if px < x ∧ py < y then
        backSnakeAux px py fuel (x - 1) (y - 1)
          (ed ++ [⟨EditOp.Keep, (x - 1).toNat, (y - 1).toNat⟩])
      else (x, y, ed)) := rfl

/-- Unrolling the backward snake when it is stopped by its first guard
(the insertion shape). -/
theorem backSnakeAux_ins (px py : Int) (hpx : 0 ≤ px) (hpy : 0 ≤ py + 1) :
    ∀ (t : Nat) (ed : List Edit),
      backSnakeAux px py t (px + t) (py + 1 + t) ed =
        (px, py + 1, ed ++ (keepsBetween px.toNat (py + 1).toNat t).reverse) := by
  intro t
  induction t with
  | zero =>
    intro ed
    simp [backSnakeAux, keepsBetween]
  | succ t ih =>
    intro ed
    rw [backSnakeAux_succ]
    rw [if_pos ⟨by omega, by omega⟩]
    rw [show px + ((t + 1 : Nat) : Int) - 1 = px + (t : Nat) by push_cast; ring,
        show py + 1 + ((t + 1 : Nat) : Int) - 1 = py + 1 + (t : Nat) by push_cast; ring,
        show (px + ((t : Nat) : Int)).toNat = px.toNat + t by omega,
        show (py + 1 + ((t : Nat) : Int)).toNat = (py + 1).toNat + t by omega]
    rw [ih]
    rw [show (keepsBetween px.toNat (py + 1).toNat (t + 1)).reverse =
        ⟨EditOp.Keep, px.toNat + t, (py + 1).toNat + t⟩ ::
          (keepsBetween px.toNat (py + 1).toNat t).reverse from by
      unfold keepsBetween
      rw [List.range_succ, List.map_append, List.reverse_append]
      rfl]
    simp

/-- Unrolling the backward snake when it is stopped by its second guard
(the deletion shape). -/
theorem backSnakeAux_del (px py : Int) (hpx : 0 ≤ px + 1) (hpy : 0 ≤ py) :
    ∀ (t : Nat) (ed : List Edit),
      backSnakeAux px py (t + 1) (px + 1 + t) (py + t) ed =
        (px + 1, py, ed ++ (keepsBetween (px + 1).toNat py.toNat t).reverse) := by
  intro t
  induction t with
  | zero =>
    intro ed
    rw [backSnakeAux_succ]
    rw [if_neg (by omega)]
    simp [keepsBetween]
  | succ t ih =>
    intro ed
    rw [backSnakeAux_succ]
    rw [if_pos ⟨by omega, by omega⟩]
    rw [show px + 1 + ((t + 1 : Nat) : Int) - 1 = px + 1 + (t : Nat) by push_cast; ring,
        show py + ((t + 1 : Nat) : Int) - 1 = py + (t : Nat) by push_cast; ring,
        show (px + 1 + ((t : Nat) : Int)).toNat = (px + 1).toNat + t by omega,
        show (py + ((t : Nat) : Int)).toNat = py.toNat + t by omega]
    rw [ih]
    rw [show (keepsBetween (px + 1).toNat py.toNat (t + 1)).reverse =
        ⟨EditOp.Keep, (px + 1).toNat + t, py.toNat + t⟩ ::
          (keepsBetween (px + 1).toNat py.toNat t).reverse from by
      unfold keepsBetween
      rw [List.range_succ, List.map_append, List.reverse_append]
      rfl]
    simp

/-- The backward snake from an insertion-shaped previous point stops exactly
at the pre-snake point of the forward pass. -/
theorem backSnake_toIns (px k x : Int) (hpx : 0 ≤ px) (hpk : 0 ≤ px - k)
    (hxx : px ≤ x) (ed : List Edit) :
    backSnake px (px - k - 1) x (x - k) ed =
      (px, px - k, ed ++ (keepsBetween px.toNat (px - k).toNat (x - px).toNat).reverse) := by
  have h := backSnakeAux_ins px (px - k - 1) hpx (by omega) (x - px).toNat ed
  rw [show px + (((x - px).toNat : Nat) : Int) = x by omega,
      show px - k - 1 + 1 + (((x - px).toNat : Nat) : Int) = x - k by omega] at h
  unfold backSnake
  rw [show (x - px).toNat = (x - px).toNat from rfl]
  rw [h]
  rw [show px - k - 1 + 1 = px - k by ring]

/-- The backward snake from a deletion-shaped previous point stops exactly
at the pre-snake point of the forward pass. -/
theorem backSnake_toDel (px k x : Int) (hpx : 0 ≤ px + 1) (hpk : 0 ≤ px + 1 - k)
    (hxx : px + 1 ≤ x) (ed : List Edit) :
    backSnake px (px + 1 - k) x (x - k) ed =
      (px + 1, px + 1 - k,
        ed ++ (keepsBetween (px + 1).toNat (px + 1 - k).toNat (x - (px + 1)).toNat).reverse) := by
  have h := backSnakeAux_del px (px + 1 - k) hpx (by omega) (x - (px + 1)).toNat ed
  rw [show px + 1 + (((x - (px + 1)).toNat : Nat) : Int) = x by omega,
      show px + 1 - k + (((x - (px + 1)).toNat : Nat) : Int) = x - k by omega] at h
  unfold backSnake
  rw [show (x - px).toNat = (x - (px + 1)).toNat + 1 by omega]
  exact h

/-- Extending a forward path with a run of matching keeps. -/
theorem pathTo_keepRun {a b : List α} {p q : Nat} {es : List Edit}
    (h : PathTo a b p q es) :
    ∀ t, (∀ i, i < t → p + i < a.length ∧ q + i < b.length ∧
        a.get? (p + i) = b.get? (q + i)) →
      PathTo a b (p + t) (q + t) (es ++ keepsBetween p q t) := by
  intro t
  induction t with
  | zero =>
    intro _
    simpa [keepsBetween] using h
  | succ t ih =>
    intro hm
    have hp := PathTo.keep (ih (fun i hi => hm i (by omega)))
      (hm t (by omega)).1 (hm t (by omega)).2.1 (hm t (by omega)).2.2
    have hkb : keepsBetween p q (t + 1) =
        keepsBetween p q t ++ [⟨EditOp.Keep, p + t, q + t⟩] := by
      unfold keepsBetween
      rw [List.range_succ, List.map_append]
      rfl
    rw [hkb, ← List.append_assoc]
    exact hp

/-- The non-keep count distributes over append. -/
theorem nonKeepCount_append (es fs : List Edit) :
    nonKeepCount (es ++ fs) = nonKeepCount es + nonKeepCount fs := by
  unfold nonKeepCount
  rw [List.filter_append, List.length_append]

/-- A keep run has no non-keep edits. -/
theorem nonKeepCount_keepsBetween (p q t : Nat) : nonKeepCount (keepsBetween p q t) = 0 := by
  unfold nonKeepCount
  rw [List.length_eq_zero]
  rw [List.filter_eq_nil_iff]
  intro e he
  unfold keepsBetween at he
  obtain ⟨i, _, rfl⟩ := List.mem_map.mp he
  simp

/-- A single non-keep edit counts once. -/
theorem nonKeepCount_single (op : EditOp) (i j : Nat) (h : op ≠ EditOp.Keep) :
    nonKeepCount [⟨op, i, j⟩] = 1 := by
  unfold nonKeepCount
  rw [List.filter_cons_of_pos (by simpa using h)]
  rfl

/-- Unfolding of the backward level walk on a cons cell, with the previous
point named. -/
theorem backLoop_cons_pre (trace : List (Int → Int)) (td : Nat) (tds : List Nat)
    (x y : Int) (ed : List Edit) (prevK prevX prevY : Int)
    (h1 : (if backTakesInsert (trace.getD td (fun _ => 0)) (td : Int) (x - y)
           then x - y + 1 else x - y - 1) = prevK)
    (h2 : (if 0 < td then trace.getD td (fun _ => 0) prevK else 0) = prevX)
    (h3 : prevX - prevK = prevY) :
    backLoop trace (td :: tds) x y ed =
      (if 0 < td then
        if prevX < (backSnake prevX prevY x y ed).1 then
          backLoop trace tds ((backSnake prevX prevY x y ed).1 - 1)
            (backSnake prevX prevY x y ed).2.1
            ((backSnake prevX prevY x y ed).2.2 ++
              [⟨EditOp.Delete, ((backSnake prevX prevY x y ed).1 - 1).toNat,
                (backSnake prevX prevY x y ed).2.1.toNat⟩])
        else if prevY < (backSnake prevX prevY x y ed).2.1 then
          backLoop trace tds (backSnake prevX prevY x y ed).1
            ((backSnake prevX prevY x y ed).2.1 - 1)
            ((backSnake prevX prevY x y ed).2.2 ++
              [⟨EditOp.Insert, (backSnake prevX prevY x y ed).1.toNat,
                ((backSnake prevX prevY x y ed).2.1 - 1).toNat⟩])
        else backLoop trace tds (backSnake prevX prevY x y ed).1
          (backSnake prevX prevY x y ed).2.1 (backSnake prevX prevY x y ed).2.2
      else backLoop trace tds (backSnake prevX prevY x y ed).1
        (backSnake prevX prevY x y ed).2.1 (backSnake prevX prevY x y ed).2.2) := by
  subst h1 h2 h3
  rfl

/-- The level-0 backward snake from `(t, t)` returns to the origin. -/
theorem backSnake_diag0 (t : Nat) (ed : List Edit) :
    backSnake 0 (-1) (t : Int) (t : Int) ed =
      ((0 : Int), (0 : Int), ed ++ (keepsBetween 0 0 t).reverse) := by
  have h := backSnakeAux_ins 0 (-1) (by omega) (by omega) t ed
  rw [show (0 : Int) + ((t : Nat) : Int) = (t : Int) by omega,
      show (-1 : Int) + 1 + ((t : Nat) : Int) = (t : Int) by omega] at h
  unfold backSnake
  rw [show ((t : Int) - 0).toNat = t by omega]
  rw [h]
  norm_num

set_option maxHeartbeats 2000000 in
/-- Correctness of the backward level walk: from a genuinely-reached position
whose diagonal cell stores exactly that position, the walk emits (reversed) a
forward path from the origin with exactly one non-keep edit per level. -/
theorem backLoop_correct (a b : List α) {e : Nat} (he : FirstPass a b e) :
    ∀ td (x y : Int), td ≤ e → 0 ≤ x → x ≤ (a.length : Int) → 0 ≤ y →
      y ≤ (b.length : Int) →
      Reach a b td x.toNat y.toNat → mV a b td (x - y) = x →
      ∃ es, PathTo a b x.toNat y.toNat es ∧ nonKeepCount es = td ∧
        ∀ ed, backLoop (traceUpTo a b e) ((List.range (td + 1)).reverse) x y ed =
          ed ++ es.reverse := by
  intro td
  induction td with
  | zero =>
    intro x y hle hx0 hxn hy0 hym hr hmv
    have hb := reach_bounds hr
    have hxy : y = x := by omega
    subst hxy
    obtain ⟨t, rfl⟩ : ∃ t : Nat, y = (t : Int) := ⟨y.toNat, by omega⟩
    rw [show (t : Int) - (t : Int) = 0 by ring] at hmv
    have hmatch : ∀ i, i < t → 0 + i < a.length ∧ 0 + i < b.length ∧
        a.get? (0 + i) = b.get? (0 + i) := by
      intro i hi
      have hz := snakeAux_run a b (a.length + 1) 0 (0 - 0) (i : Int) (by omega)
        (by rw [show (snakeAux a b (a.length + 1) 0 (0 - 0)).1 =
              mV a b 0 0 from rfl, hmv]
            omega)
      obtain ⟨hz1, hz2, hz3, hz4, hz5⟩ := hz
      rw [show ((0 : Int) - 0 + ((i : Int) - 0)).toNat = i by omega] at hz4 hz5
      rw [show ((i : Int)).toNat = i by omega] at hz3 hz5
      exact ⟨by omega, by omega, by rw [show 0 + i = i by omega]; exact hz5⟩
    refine ⟨keepsBetween 0 0 t, ?_, nonKeepCount_keepsBetween 0 0 t, ?_⟩
    · have hp := pathTo_keepRun PathTo.nil t hmatch
      simpa using hp
    · intro ed
      rw [show (List.range (0 + 1)).reverse = [0] from rfl]
      rw [backLoop_cons_pre (traceUpTo a b e) 0 [] (t : Int) (t : Int) ed 1 0 (-1)
        ?h1 ?h2 (by omega)]
      case h1 =>
        have hcond : backTakesInsert ((traceUpTo a b e).getD 0 (fun _ => 0))
            ((0 : Nat) : Int) ((t : Int) - (t : Int)) = true :=
          decide_eq_true (Or.inl (by omega))
        rw [if_pos hcond]
        omega
      case h2 => rw [if_neg (by omega)]
      rw [if_neg (by omega)]
      rw [backSnake_diag0]
      rfl
  | succ td ih =>
    intro x y hle hx0 hxn hy0 hym hr hmv
    obtain ⟨k, rfl⟩ : ∃ k : Int, y = x - k := ⟨x - y, by ring⟩
    rw [show x - (x - k) = k by ring] at hmv
    have hb := reach_bounds hr
    have hparity : (k - ((td + 1 : Nat) : Int)) % 2 = 0 := by
      have h := reach_parity hr
      omega
    have hk1 : k.natAbs ≤ td + 1 := by omega
    have hNPtd : NoPassBelow a b td := fun e' he' => he.2 e' (by omega)
    have hmvS : (snakeExt a b (x0V a b td k) (x0V a b td k - k)).1 = x := by
      rw [← mV_succ]
      exact hmv
    have hgex : x0V a b td k ≤ x := by
      have hge := snakeExt_ge a b (x0V a b td k) (x0V a b td k - k)
      omega
    have hreadP : vBefore a b (td + 1) (k + 1) = mW a b td (k + 1) := by
      rw [vBefore_succ]
      exact vAfter_eq_mW a b td (show (k + 1 - (td : Int)) % 2 = 0 by
        push_cast at hparity; omega)
    have hreadM : vBefore a b (td + 1) (k - 1) = mW a b td (k - 1) := by
      rw [vBefore_succ]
      exact vAfter_eq_mW a b td (show (k - 1 - (td : Int)) % 2 = 0 by
        push_cast at hparity; omega)
    have hbteq : backTakesInsert (vBefore a b (td + 1)) ((td + 1 : Nat) : Int) k =
        fwdTakesInsert (mW a b td) ((td + 1 : Nat) : Int) k := by
      show fwdTakesInsert _ _ _ = _
      exact fwdTakesInsert_congr _ _ _ _ hreadM hreadP
    cases hT : fwdTakesInsert (mW a b td) ((td + 1 : Nat) : Int) k with
    | true =>
      have hj : (k + 1).natAbs ≤ td := by
        rcases (fwdTakesInsert_iff _ _ _).mp hT with h1 | ⟨h1, _⟩
        · have h1' : k = -((td + 1 : Nat) : Int) := h1
          push_cast at h1' hparity
          omega
        · have h1' : k ≠ ((td + 1 : Nat) : Int) := h1
          push_cast at h1' hparity
          omega
      have hparj : sameParity td (k + 1) :=
        show (k + 1 - (td : Int)) % 2 = 0 by push_cast at hparity; omega
      have hx0eq : x0V a b td k = mV a b td (k + 1) := by
        unfold x0V
        rw [if_pos hT]
        exact mW_eq_mV a b td _ hj
      have hxx : mV a b td (k + 1) ≤ x := by omega
      rcases tri a b td hNPtd (k + 1) hj hparj with
        ⟨hA1, hA2, hA3, hA4, hA5⟩ | ⟨hB1, hB2, hB3, hB4, hB5, hB6⟩ |
        ⟨hC1, hC2, hC3, hC4, hC5, hC6⟩
      · obtain ⟨es', hPath', hCount', hLoop'⟩ := ih (mV a b td (k + 1))
          (mV a b td (k + 1) - (k + 1)) (by omega) hA1 hA2 hA3 hA4 hA5 (by
            rw [show mV a b td (k + 1) - (mV a b td (k + 1) - (k + 1)) = k + 1 by ring])
        have hrun : ∀ i, i < (x - mV a b td (k + 1)).toNat →
            (mV a b td (k + 1)).toNat + i < a.length ∧
            (mV a b td (k + 1) - k).toNat + i < b.length ∧
            a.get? ((mV a b td (k + 1)).toNat + i) =
              b.get? ((mV a b td (k + 1) - k).toNat + i) := by
          intro i hi
          have hz := snakeAux_run a b (a.length + 1) (x0V a b td k) (x0V a b td k - k)
            (mV a b td (k + 1) + (i : Int)) (by omega) (by
              rw [show (snakeAux a b (a.length + 1) (x0V a b td k) (x0V a b td k - k)).1 =
                (snakeExt a b (x0V a b td k) (x0V a b td k - k)).1 from rfl, hmvS]
              omega)
          obtain ⟨hz1, hz2, hz3, hz4, hz5⟩ := hz
          rw [show (x0V a b td k - k + (mV a b td (k + 1) + (i : Int) - x0V a b td k)) =
              mV a b td (k + 1) - k + (i : Int) by ring] at hz4 hz5
          rw [show (mV a b td (k + 1) + (i : Int)).toNat = (mV a b td (k + 1)).toNat + i
            by omega] at hz3 hz5
          rw [show (mV a b td (k + 1) - k + (i : Int)).toNat =
              (mV a b td (k + 1) - k).toNat + i by omega] at hz4 hz5
          exact ⟨hz3, hz4, hz5⟩
        refine ⟨es' ++ [⟨EditOp.Insert, (mV a b td (k + 1)).toNat,
            (mV a b td (k + 1) - (k + 1)).toNat⟩] ++
            keepsBetween (mV a b td (k + 1)).toNat (mV a b td (k + 1) - k).toNat
              (x - mV a b td (k + 1)).toNat, ?_, ?_, ?_⟩
        · have hstep := PathTo.ins hPath'
            (show (mV a b td (k + 1) - (k + 1)).toNat < b.length by omega)
          have hpos : (mV a b td (k + 1) - (k + 1)).toNat + 1 =
              (mV a b td (k + 1) - k).toNat := by omega
          rw [hpos] at hstep
          have hkeep := pathTo_keepRun hstep (x - mV a b td (k + 1)).toNat hrun
          rw [show (mV a b td (k + 1)).toNat + (x - mV a b td (k + 1)).toNat = x.toNat
              by omega,
              show (mV a b td (k + 1) - k).toNat + (x - mV a b td (k + 1)).toNat =
                (x - k).toNat by omega] at hkeep
          exact hkeep
        · rw [nonKeepCount_append, nonKeepCount_append, hCount',
              nonKeepCount_single _ _ _ (by decide), nonKeepCount_keepsBetween]
        · intro ed
          rw [show (List.range (td + 1 + 1)).reverse =
              (td + 1) :: (List.range (td + 1)).reverse from by
            rw [List.range_succ, List.reverse_append]
            rfl]
          rw [backLoop_cons_pre (traceUpTo a b e) (td + 1) ((List.range (td + 1)).reverse)
            x (x - k) ed (k + 1) (mV a b td (k + 1)) (mV a b td (k + 1) - (k + 1))
            ?h1 ?h2 rfl]
          case h1 =>
            rw [show x - (x - k) = k by ring]
            rw [traceUpTo_getD a b e (td + 1) (by omega)]
            rw [if_pos (hbteq.trans hT)]
          case h2 =>
            rw [if_pos (by omega)]
            rw [traceUpTo_getD a b e (td + 1) (by omega)]
            rw [hreadP, mW_eq_mV a b td _ hj]
          rw [if_pos (by omega : 0 < td + 1)]
          rw [show mV a b td (k + 1) - (k + 1) = mV a b td (k + 1) - k - 1 by ring]
            at hLoop' ⊢
          rw [backSnake_toIns (mV a b td (k + 1)) k x hA1 (by omega) hxx ed]
          dsimp only
          rw [if_neg (by omega : ¬(mV a b td (k + 1) < mV a b td (k + 1)))]
          rw [if_pos (by omega : mV a b td (k + 1) - k - 1 < mV a b td (k + 1) - k)]
          rw [hLoop']
          simp [List.reverse_append, List.append_assoc]
      · exact absurd hB1 (by omega)
      · exact absurd hC1 (by omega)
    | false =>
      obtain ⟨hne1, _⟩ := fwdTakesInsert_false hT
      have hj : (k - 1).natAbs ≤ td := by
        have h1' : k ≠ -((td + 1 : Nat) : Int) := hne1
        push_cast at h1' hparity
        omega
      have hparj : sameParity td (k - 1) :=
        show (k - 1 - (td : Int)) % 2 = 0 by push_cast at hparity; omega
      have hx0eq : x0V a b td k = mV a b td (k - 1) + 1 := by
        unfold x0V
        rw [if_neg (by rw [hT]; simp)]
        rw [mW_eq_mV a b td _ hj]
      have hxx : mV a b td (k - 1) + 1 ≤ x := by omega
      rcases tri a b td hNPtd (k - 1) hj hparj with
        ⟨hA1, hA2, hA3, hA4, hA5⟩ | ⟨hB1, hB2, hB3, hB4, hB5, hB6⟩ |
        ⟨hC1, hC2, hC3, hC4, hC5, hC6⟩
      · obtain ⟨es', hPath', hCount', hLoop'⟩ := ih (mV a b td (k - 1))
          (mV a b td (k - 1) - (k - 1)) (by omega) hA1 hA2 hA3 hA4 hA5 (by
            rw [show mV a b td (k - 1) - (mV a b td (k - 1) - (k - 1)) = k - 1 by ring])
        have hrun : ∀ i, i < (x - (mV a b td (k - 1) + 1)).toNat →
            (mV a b td (k - 1) + 1).toNat + i < a.length ∧
            (mV a b td (k - 1) + 1 - k).toNat + i < b.length ∧
            a.get? ((mV a b td (k - 1) + 1).toNat + i) =
              b.get? ((mV a b td (k - 1) + 1 - k).toNat + i) := by
          intro i hi
          have hz := snakeAux_run a b (a.length + 1) (x0V a b td k) (x0V a b td k - k)
            (mV a b td (k - 1) + 1 + (i : Int)) (by omega) (by
              rw [show (snakeAux a b (a.length + 1) (x0V a b td k) (x0V a b td k - k)).1 =
                (snakeExt a b (x0V a b td k) (x0V a b td k - k)).1 from rfl, hmvS]
              omega)
          obtain ⟨hz1, hz2, hz3, hz4, hz5⟩ := hz
          rw [show (x0V a b td k - k + (mV a b td (k - 1) + 1 + (i : Int) - x0V a b td k)) =
              mV a b td (k - 1) + 1 - k + (i : Int) by ring] at hz4 hz5
          rw [show (mV a b td (k - 1) + 1 + (i : Int)).toNat =
              (mV a b td (k - 1) + 1).toNat + i by omega] at hz3 hz5
          rw [show (mV a b td (k - 1) + 1 - k + (i : Int)).toNat =
              (mV a b td (k - 1) + 1 - k).toNat + i by omega] at hz4 hz5
          exact ⟨hz3, hz4, hz5⟩
        refine ⟨es' ++ [⟨EditOp.Delete, (mV a b td (k - 1)).toNat,
            (mV a b td (k - 1) + 1 - k).toNat⟩] ++
            keepsBetween (mV a b td (k - 1) + 1).toNat (mV a b td (k - 1) + 1 - k).toNat
              (x - (mV a b td (k - 1) + 1)).toNat, ?_, ?_, ?_⟩
        · have hstep := PathTo.del hPath'
            (show (mV a b td (k - 1)).toNat < a.length by omega)
          have hpos1 : (mV a b td (k - 1)).toNat + 1 = (mV a b td (k - 1) + 1).toNat := by
            omega
          have hpos2 : (mV a b td (k - 1) - (k - 1)).toNat =
              (mV a b td (k - 1) + 1 - k).toNat := by omega
          rw [hpos1, hpos2] at hstep
          have hkeep := pathTo_keepRun hstep (x - (mV a b td (k - 1) + 1)).toNat hrun
          rw [show (mV a b td (k - 1) + 1).toNat + (x - (mV a b td (k - 1) + 1)).toNat =
              x.toNat by omega,
              show (mV a b td (k - 1) + 1 - k).toNat + (x - (mV a b td (k - 1) + 1)).toNat =
                (x - k).toNat by omega] at hkeep
          exact hkeep
        · rw [nonKeepCount_append, nonKeepCount_append, hCount',
              nonKeepCount_single _ _ _ (by decide), nonKeepCount_keepsBetween]
        · intro ed
          rw [show (List.range (td + 1 + 1)).reverse =
              (td + 1) :: (List.range (td + 1)).reverse from by
            rw [List.range_succ, List.reverse_append]
            rfl]
          rw [backLoop_cons_pre (traceUpTo a b e) (td + 1) ((List.range (td + 1)).reverse)
            x (x - k) ed (k - 1) (mV a b td (k - 1)) (mV a b td (k - 1) - (k - 1))
            ?h1 ?h2 rfl]
          case h1 =>
            rw [show x - (x - k) = k by ring]
            rw [traceUpTo_getD a b e (td + 1) (by omega)]
            rw [if_neg (by rw [hbteq, hT]; simp)]
          case h2 =>
            rw [if_pos (by omega)]
            rw [traceUpTo_getD a b e (td + 1) (by omega)]
            rw [hreadM, mW_eq_mV a b td _ hj]
          rw [if_pos (by omega : 0 < td + 1)]
          rw [show mV a b td (k - 1) - (k - 1) = mV a b td (k - 1) + 1 - k by ring]
            at hLoop' ⊢
          rw [backSnake_toDel (mV a b td (k - 1)) k x (by omega) (by omega) hxx ed]
          dsimp only
          rw [if_pos (by omega : mV a b td (k - 1) < mV a b td (k - 1) + 1)]
          rw [show mV a b td (k - 1) + 1 - 1 = mV a b td (k - 1) by ring]
          rw [hLoop']
          simp [List.reverse_append, List.append_assoc]
      · exact absurd hB1 (by omega)
      · exact absurd hC1 (by omega)

/-- The backtrack of the stopping level is a forward path to the far corner
with one non-keep edit per level. -/
theorem backtrack_correct (a b : List α) {e : Nat} (he : FirstPass a b e) :
    PathTo a b a.length b.length (backtrack (traceUpTo a b e) a b e) ∧
      nonKeepCount (backtrack (traceUpTo a b e) a b e) = e := by
  obtain ⟨hre, hno, hmv⟩ := firstPass_corner he
  obtain ⟨es, hPath, hCount, hLoop⟩ := backLoop_correct a b he e (a.length : Int)
    (b.length : Int) (le_refl e) (by omega) (by omega) (by omega) (by omega)
    (by rw [show ((a.length : Nat) : Int).toNat = a.length by omega,
            show ((b.length : Nat) : Int).toNat = b.length by omega]
        exact hre)
    hmv
  unfold backtrack
  rw [hLoop []]
  rw [List.nil_append, List.reverse_reverse]
  rw [show ((a.length : Nat) : Int).toNat = a.length by omega,
      show ((b.length : Nat) : Int).toNat = b.length by omega] at hPath
  exact ⟨hPath, hCount⟩

/-- The solver's output is a forward path to the far corner whose non-keep
count is the least level reaching the corner. -/
theorem myers_pathTo (a b : List α) :
    ∃ e, PathTo a b a.length b.length (myers_diff a b) ∧
      nonKeepCount (myers_diff a b) = e ∧ Reach a b e a.length b.length ∧
      ∀ e' < e, ¬Reach a b e' a.length b.length := by
  obtain ⟨e, hle, he⟩ := firstPass_exists a b
  obtain ⟨hre, hno, hmv⟩ := firstPass_corner he
  obtain ⟨hPath, hCount⟩ := backtrack_correct a b he
  rw [← myers_eq_backtrack a b he] at hPath hCount
  exact ⟨e, hPath, hCount, hre, hno⟩

/-- Gluing a forward path to a covering tail yields a covering from the
origin. -/
theorem pathTo_covers {a b : List α} :
    ∀ {x y : Nat} {es : List Edit}, PathTo a b x y es →
      ∀ {fs : List Edit}, Covers a b x y fs → Covers a b 0 0 (es ++ fs) := by
  intro x y es h
  induction h with
  | nil =>
    intro fs hc
    exact hc
  | @keep x y es hp hx hy heq ih =>
    intro fs hc
    rw [List.append_assoc]
    exact ih (Covers.keep hx hy heq hc)
  | @del x y es hp hx ih =>
    intro fs hc
    rw [List.append_assoc]
    exact ih (Covers.del hx hc)
  | @ins x y es hp hy ih =>
    intro fs hc
    rw [List.append_assoc]
    exact ih (Covers.ins hy hc)

/-- The solver's output covers the whole grid from the origin. -/
theorem myers_covers (a b : List α) : Covers a b 0 0 (myers_diff a b) := by
  obtain ⟨e, hPath, _, _, _⟩ := myers_pathTo a b
  have h := pathTo_covers hPath Covers.nil
  simpa using h

/-- Applying a covering edit list emits exactly the uncovered suffix of `B`. -/
theorem covers_applyEdits {a b : List α} :
    ∀ {x y : Nat} {es : List Edit}, Covers a b x y es →
      applyEdits a b es = b.drop y := by
  intro x y es h
  induction h with
  | nil =>
    rw [List.drop_length]
    rfl
  | @keep x y es hx hy heq hc ih =>
    show (a.get? x).toList ++ applyEdits a b es = b.drop y
    rw [ih, heq, List.get?_eq_getElem?, List.getElem?_eq_getElem hy,
        List.drop_eq_getElem_cons hy]
    rfl
  | @del x y es hx hc ih =>
    show applyEdits a b es = b.drop y
    exact ih
  | @ins x y es hy hc ih =>
    show (b.get? y).toList ++ applyEdits a b es = b.drop y
    rw [ih, List.get?_eq_getElem?, List.getElem?_eq_getElem hy,
        List.drop_eq_getElem_cons hy]
    rfl

/-- A covering edit list consumes exactly the remaining positions of both
sequences, in order. -/
theorem covers_consumed {a b : List α} :
    ∀ {x y : Nat} {es : List Edit}, Covers a b x y es →
      consumedA es = List.range' x (a.length - x) ∧
      consumedB es = List.range' y (b.length - y) := by
  intro x y es h
  induction h with
  | nil =>
    rw [Nat.sub_self, Nat.sub_self]
    exact ⟨rfl, rfl⟩
  | @keep x y es hx hy heq hc ih =>
    constructor
    · show x :: consumedA es = List.range' x (a.length - x)
      rw [ih.1, show a.length - x = (a.length - (x + 1)) + 1 by omega, List.range'_succ]
    · show y :: consumedB es = List.range' y (b.length - y)
      rw [ih.2, show b.length - y = (b.length - (y + 1)) + 1 by omega, List.range'_succ]
  | @del x y es hx hc ih =>
    constructor
    · show x :: consumedA es = List.range' x (a.length - x)
      rw [ih.1, show a.length - x = (a.length - (x + 1)) + 1 by omega, List.range'_succ]
    · show consumedB es = List.range' y (b.length - y)
      exact ih.2
  | @ins x y es hy hc ih =>
    constructor
    · show consumedA es = List.range' x (a.length - x)
      exact ih.1
    · show y :: consumedB es = List.range' y (b.length - y)
      rw [ih.2, show b.length - y = (b.length - (y + 1)) + 1 by omega, List.range'_succ]

/-- A covering edit list transforms the uncovered suffix of `A` into the
uncovered suffix of `B` with its non-keep edits. -/
theorem covers_transforms {a b : List α} :
    ∀ {x y : Nat} {es : List Edit}, Covers a b x y es →
      Transforms (a.drop x) (b.drop y) (nonKeepCount es) := by
  intro x y es h
  induction h with
  | nil =>
    rw [List.drop_length, List.drop_length]
    exact Transforms.nil
  | @keep x y es hx hy heq hc ih =>
    rw [List.drop_eq_getElem_cons hx, List.drop_eq_getElem_cons hy]
    have hel : a[x] = b[y] := by
      rw [List.get?_eq_getElem?, List.getElem?_eq_getElem hx,
          List.get?_eq_getElem?, List.getElem?_eq_getElem hy] at heq
      exact Option.some.inj heq
    rw [hel]
    show Transforms (b[y] :: a.drop (x + 1)) (b[y] :: b.drop (y + 1)) (nonKeepCount es)
    exact Transforms.keep ih
  | @del x y es hx hc ih =>
    rw [List.drop_eq_getElem_cons hx]
    show Transforms (a[x] :: a.drop (x + 1)) (b.drop y) (nonKeepCount es + 1)
    exact Transforms.del ih
  | @ins x y es hy hc ih =>
    rw [List.drop_eq_getElem_cons hy]
    show Transforms (a.drop x) (b[y] :: b.drop (y + 1)) (nonKeepCount es + 1)
    exact Transforms.ins ih

/-- A transformation of suffixes extends reachability to the far corner. -/
theorem transforms_reach {a b : List α} :
    ∀ {as bs : List α} {d : Nat}, Transforms as bs d →
      ∀ x y d0, a.drop x = as → b.drop y = bs → Reach a b d0 x y →
        Reach a b (d0 + d) a.length b.length := by
  intro as bs d h
  induction h with
  | nil =>
    intro x y d0 hax hby hr
    have hb := reach_bounds hr
    have hx : x = a.length := by
      have h1 : a.length ≤ x := List.drop_eq_nil_iff.mp hax
      omega
    have hy : y = b.length := by
      have h1 : b.length ≤ y := List.drop_eq_nil_iff.mp hby
      omega
    rw [hx, hy] at hr
    exact hr
  | @keep c as bs d ht ih =>
    intro x y d0 hax hby hr
    have hxl : x < a.length := by
      by_contra hge
      push_neg at hge
      rw [List.drop_eq_nil_of_le hge] at hax
      exact absurd hax (by simp)
    have hyl : y < b.length := by
      by_contra hge
      push_neg at hge
      rw [List.drop_eq_nil_of_le hge] at hby
      exact absurd hby (by simp)
    rw [List.drop_eq_getElem_cons hxl] at hax
    rw [List.drop_eq_getElem_cons hyl] at hby
    obtain ⟨hhead1, htail1⟩ := List.cons.inj hax
    obtain ⟨hhead2, htail2⟩ := List.cons.inj hby
    have hstep := Reach.diag hr hxl hyl (by
      rw [List.get?_eq_getElem?, List.getElem?_eq_getElem hxl,
          List.get?_eq_getElem?, List.getElem?_eq_getElem hyl, hhead1, hhead2])
    exact ih (x + 1) (y + 1) d0 htail1 htail2 hstep
  | @del c as bs d ht ih =>
    intro x y d0 hax hby hr
    have hxl : x < a.length := by
      by_contra hge
      push_neg at hge
      rw [List.drop_eq_nil_of_le hge] at hax
      exact absurd hax (by simp)
    rw [List.drop_eq_getElem_cons hxl] at hax
    obtain ⟨hhead1, htail1⟩ := List.cons.inj hax
    have := ih (x + 1) y (d0 + 1) htail1 hby (Reach.del hr hxl)
    rw [show d0 + (d + 1) = d0 + 1 + d by omega]
    exact this
  | @ins c as bs d ht ih =>
    intro x y d0 hax hby hr
    have hyl : y < b.length := by
      by_contra hge
      push_neg at hge
      rw [List.drop_eq_nil_of_le hge] at hby
      exact absurd hby (by simp)
    rw [List.drop_eq_getElem_cons hyl] at hby
    obtain ⟨hhead2, htail2⟩ := List.cons.inj hby
    have := ih x (y + 1) (d0 + 1) hax htail2 (Reach.ins hr hyl)
    rw [show d0 + (d + 1) = d0 + 1 + d by omega]
    exact this

/-- Any transformation witnesses reachability of the corner at its level. -/
theorem transforms_min {a b : List α} {d : Nat} (h : Transforms a b d) :
    Reach a b d a.length b.length := by
  have h2 := transforms_reach h 0 0 0 rfl rfl Reach.start
  simpa using h2

/-- Minimality of the solver's non-keep count. -/
theorem myers_minimal (a b : List α) :
    Transforms a b (nonKeepCount (myers_diff a b)) ∧
      ∀ d', Transforms a b d' → nonKeepCount (myers_diff a b) ≤ d' := by
  obtain ⟨e, hPath, hCount, hre, hno⟩ := myers_pathTo a b
  constructor
  · have hc := covers_transforms (myers_covers a b)
    simpa using hc
  · intro d' hd'
    rw [hCount]
    by_contra hlt
    push_neg at hlt
    exact hno d' hlt (transforms_min hd')

/-- Over an empty `A`, a covering edit list is the in-order pure insert run
over the remaining positions of `B`. -/
theorem covers_empty_a {b : List α} :
    ∀ {x y : Nat} {es : List Edit}, Covers ([] : List α) b x y es →
      es = (List.range' y (b.length - y)).map (fun j => (⟨EditOp.Insert, x, j⟩ : Edit)) := by
  intro x y es h
  induction h with
  | nil =>
    rw [Nat.sub_self]
    rfl
  | @keep x y es hx hy heq hc ih => exact absurd hx (by simp)
  | @del x y es hx hc ih => exact absurd hx (by simp)
  | @ins x y es hy hc ih =>
    rw [ih]
    rw [show b.length - y = (b.length - (y + 1)) + 1 by omega, List.range'_succ]
    rfl

/-- On an empty `A` the solver emits the pure insert run. -/
theorem myers_empty_a (b : List α) :
    myers_diff ([] : List α) b =
      (List.range b.length).map (fun j => (⟨EditOp.Insert, 0, j⟩ : Edit)) := by
  have h := covers_empty_a (myers_covers ([] : List α) b)
  rw [h, Nat.sub_zero, ← List.range_eq_range']

/-- An all-keep run has no non-keep edits. -/
theorem nonKeepCount_keepEdits (n : Nat) : nonKeepCount (keepEdits n) = 0 := by
  unfold nonKeepCount
  rw [List.length_eq_zero, List.filter_eq_nil_iff]
  intro e he
  unfold keepEdits at he
  obtain ⟨i, _, rfl⟩ := List.mem_map.mp he
  simp

/-- Records of a pure insert run are the insert records, in order. -/
theorem create_diff_lines_mapInsert (js : List Nat) (lines_a lines_b : List String)
    (ranges : List RedactionRange) :
    create_diff_lines (js.map (fun j => (⟨EditOp.Insert, 0, j⟩ : Edit)))
        lines_a lines_b ranges =
      js.map (fun j => insertRecord lines_b ranges j) := by
  induction js with
  | nil => rfl
  | cons j js ih =>
    rw [List.map_cons, create_diff_lines_insert _ _ _ _ _ rfl, ih]
    rfl

/-- C4: for every pair of line sequences, applying the solver-and-
reconstructor's operation sequence to `A` in forward order (`Keep` copies
the current equal line, `Delete` drops the current line of `A`, `Insert`
emits the indicated line of `B`) yields exactly `B`; the sequence is a
covering walk of the edit grid, consuming every position of `A` and of `B`
exactly once, in order. -/
theorem edit_script_validity (a b : List String) :
    Covers a b 0 0 (myers_diff a b) ∧
      applyEdits a b (myers_diff a b) = b ∧
      consumedA (myers_diff a b) = List.range a.length ∧
      consumedB (myers_diff a b) = List.range b.length := by
  have hc := myers_covers a b
  refine ⟨hc, ?_, ?_, ?_⟩
  · have h := covers_applyEdits hc
    simpa using h
  · have h := (covers_consumed hc).1
    rw [List.range_eq_range']
    simpa using h
  · have h := (covers_consumed hc).2
    rw [List.range_eq_range']
    simpa using h

/-- C5: the number of non-`Keep` (Insert plus Delete) edits the solver emits
is the line-level edit distance: some sequence of that many single-line
insertions and deletions transforms `A` into `B`, no smaller count does, and
on identical inputs the count is `0`. -/
theorem edit_script_minimality (a b : List String) :
    (Transforms a b (nonKeepCount (myers_diff a b)) ∧
      ∀ d', Transforms a b d' → nonKeepCount (myers_diff a b) ≤ d') ∧
    (∀ c : List String, nonKeepCount (myers_diff c c) = 0) := by
  refine ⟨myers_minimal a b, ?_⟩
  intro c
  rw [myers_self, nonKeepCount_keepEdits]

/-- C9: for the spec's example 3 — `A` the empty document, `B` with lines
`"one"` and `"two"`, no redaction ranges — the output is exactly two
`Insert` records, for `B`'s lines 1 and 2 in order, each with
`line_number_a` absent; in general an empty `A` makes the solver emit the
pure insert run `Insert 0 j` for `j = 0, …, |B|-1`, and every record built
from it has `line_number_a` absent and operation `Insert`. -/
theorem empty_source_pure_inserts :
    (create_diff_lines (myers_diff (rustLines "") (rustLines "one\ntwo"))
        (rustLines "") (rustLines "one\ntwo") [] =
      [⟨none, some 1, DiffOperation.Insert, some "one", none⟩,
       ⟨none, some 2, DiffOperation.Insert, some "two", none⟩]) ∧
    (∀ b : List String, myers_diff ([] : List String) b =
      (List.range b.length).map (fun j => (⟨EditOp.Insert, 0, j⟩ : Edit))) ∧
    (∀ (b lines_b : List String) (ranges : List RedactionRange),
      ∀ l ∈ create_diff_lines (myers_diff ([] : List String) b) [] lines_b ranges,
        l.line_number_a = none ∧ l.operation = DiffOperation.Insert) := by
  refine ⟨?_, myers_empty_a, ?_⟩
  · rfl
  · intro b lines_b ranges l hl
    rw [myers_empty_a, create_diff_lines_mapInsert] at hl
    obtain ⟨j, _, rfl⟩ := List.mem_map.mp hl
    exact ⟨rfl, rfl⟩

end ZkDiff
